import Mathlib

/-!
# Verification of the photo-mvp similarity search / matching engine

This development gives a shallow embedding, in Lean 4, of the core matching
subsystem of the `photo-mvp` event-photography web application, and proves
(or refutes) the behavioural properties stated in the repository's
specification.

The embedded code:

* `src/lib/similarity.ts` — the defensive cosine-similarity primitive
  (`cosineSimilarity`), embedded over exact rationals with an explicit model
  of JavaScript's "finite number after `Number(...)` coercion" notion
  (`JSVal`) and of "not an array" inputs (`Option`).  The real-valued result
  uses `Real.sqrt` for `Math.sqrt`.
* `src/app/find/find-client.tsx` (face-api variant, lines 14–331) — the
  progressive batched matcher `runMatching` with its helpers `scoreOne`,
  `keepTop`, the cooperative abort flag `abortRef`, the progress counter,
  and the publish steps.  The matcher is embedded as a state machine that
  records a trace of observable events (published result lists, progress
  updates, batch starts, and observations of the abort flag being set).
  JavaScript's stable `Array.prototype.sort` under the comparator
  `(a, b) => b.score - a.score` is embedded as the stable insertion sort
  `sortByScore`.  `Promise.all` is embedded as `promiseAll`, which takes an
  arbitrary worker-completion order and reassembles results positionally.
* `src/app/find/find-client.tsx` (embedding variant, lines 900–1074) — the
  single-pass publish step with its below-threshold fallback.
* `src/app/api/embed/route.ts` — the `/api/embed` route `POST` handler.
* `src/lib/faceServer.ts` — the client-side adapter `embedFace`.
-/

/-! ## Vector math: `cosineSimilarity` from `src/lib/similarity.ts`

A JavaScript array element, after the `Number(v)` coercion on line 5/6 of
`similarity.ts`, is either a finite number (modelled exactly as a rational)
or a non-finite value (`NaN`, `±Infinity`).  A whole argument is either an
array (`some` of a list of coerced values) or not an array (`none`). -/

inductive JSVal where
  | fin (q : ℚ)
  | nonfinite
  deriving DecidableEq, Repr

/-- `Number.isFinite` applied to a coerced value. -/
def JSVal.isFinite : JSVal → Bool
  | .fin _ => true
  | .nonfinite => false

/-- The rational carried by a finite value (`0` for non-finite values; only
ever used after an `isFinite` check, mirroring the early `return 0`). -/
def JSVal.toQ : JSVal → ℚ
  | .fin q => q
  | .nonfinite => 0

/-- The accumulator loop of `cosineSimilarity` (lines 14–21 of
`similarity.ts`): starting from `dot = 0, na = 0, nb = 0`, walk the two
arrays in lockstep; on the first non-finite element the function returns `0`
(modelled as `none`), otherwise it accumulates
`dot += x*y; na += x*x; nb += y*y`. -/
def dotNormsAux : ℚ × ℚ × ℚ → List JSVal → List JSVal → Option (ℚ × ℚ × ℚ)
  | acc, [], [] => some acc
  | acc, x :: xs, y :: ys =>
    match x, y with
    | .fin qx, .fin qy =>
        dotNormsAux (acc.1 + qx * qy, acc.2.1 + qx * qx, acc.2.2 + qy * qy) xs ys
    | _, _ => none
  | _, _, _ => none

def dotNorms (a b : List JSVal) : Option (ℚ × ℚ × ℚ) :=
  dotNormsAux (0, 0, 0) a b

/-- `cosineSimilarity(aRaw, bRaw)` from `src/lib/similarity.ts`, lines 2–24.

* `none` argument = "not an array" (line 3: `return 0`);
* empty array (line 8: `return 0`);
* length mismatch (lines 9–12: `return 0`);
* non-finite element after coercion (line 17: `return 0`);
* otherwise `dot / (Math.sqrt(na) * Math.sqrt(nb))`, and `0` when that
  denominator is `0` (line 23, `denom ? dot / denom : 0`).

The function is a total Lean function: like the source, it raises no
exception on any input. -/
noncomputable def cosineSimilarity (aRaw bRaw : Option (List JSVal)) : ℝ :=
  match aRaw, bRaw with
  | some a, some b =>
    if a.length = 0 ∨ b.length = 0 then 0
    else if a.length ≠ b.length then 0
    else
      match dotNorms a b with
      | none => 0
      | some (dot, na, nb) =>
        let denom : ℝ := Real.sqrt (na : ℝ) * Real.sqrt (nb : ℝ)
        if denom = 0 then 0 else (dot : ℝ) / denom
  | _, _ => 0

/-! Specification-side formulas: the dot product and the sums of squares,
written directly as sums over the coerced rational vectors. -/

def specDot (a b : List ℚ) : ℚ := (List.zipWith (· * ·) a b).sum

def sumSq (a : List ℚ) : ℚ := (a.map fun x => x * x).sum

def toQs (l : List JSVal) : List ℚ := l.map JSVal.toQ

lemma dotNormsAux_eq_none (a b : List JSVal) (acc : ℚ × ℚ × ℚ)
    (h : a.length = b.length)
    (hx : (∃ v ∈ a, v.isFinite = false) ∨ (∃ v ∈ b, v.isFinite = false)) :
    dotNormsAux acc a b = none := by
  induction a generalizing b acc with
  | nil =>
    cases b with
    | nil =>
      rcases hx with ⟨v, hv, _⟩ | ⟨v, hv, _⟩ <;> simp at hv
    | cons y ys => simp at h
  | cons x xs ih =>
    cases b with
    | nil => simp at h
    | cons y ys =>
      simp only [List.length_cons, Nat.add_right_cancel_iff] at h
      cases x with
      | nonfinite => rfl
      | fin qx =>
        cases y with
        | nonfinite => rfl
        | fin qy =>
          simp only [dotNormsAux]
          apply ih _ _ h
          rcases hx with ⟨v, hv, hfin⟩ | ⟨v, hv, hfin⟩
          · left
            rcases List.mem_cons.mp hv with rfl | hv'
            · simp [JSVal.isFinite] at hfin
            · exact ⟨v, hv', hfin⟩
          · right
            rcases List.mem_cons.mp hv with rfl | hv'
            · simp [JSVal.isFinite] at hfin
            · exact ⟨v, hv', hfin⟩

lemma dotNormsAux_eq_some (a b : List JSVal) (acc : ℚ × ℚ × ℚ)
    (h : a.length = b.length)
    (ha : ∀ v ∈ a, v.isFinite = true) (hb : ∀ v ∈ b, v.isFinite = true) :
    dotNormsAux acc a b =
      some (acc.1 + specDot (toQs a) (toQs b),
            acc.2.1 + sumSq (toQs a), acc.2.2 + sumSq (toQs b)) := by
  induction a generalizing b acc with
  | nil =>
    cases b with
    | nil => simp [dotNormsAux, specDot, sumSq, toQs]
    | cons y ys => simp at h
  | cons x xs ih =>
    cases b with
    | nil => simp at h
    | cons y ys =>
      simp only [List.length_cons, Nat.add_right_cancel_iff] at h
      have hxf := ha x (List.mem_cons_self x xs)
      have hyf := hb y (List.mem_cons_self y ys)
      cases x with
      | nonfinite => simp [JSVal.isFinite] at hxf
      | fin qx =>
        cases y with
        | nonfinite => simp [JSVal.isFinite] at hyf
        | fin qy =>
          simp only [dotNormsAux]
          rw [ih _ _ h (fun v hv => ha v (List.mem_cons_of_mem _ hv))
            (fun v hv => hb v (List.mem_cons_of_mem _ hv))]
          simp only [specDot, sumSq, toQs, List.map_cons, List.zipWith_cons_cons,
            List.sum_cons, JSVal.toQ, Option.some.injEq, Prod.mk.injEq]
          exact ⟨by ring, by ring, by ring⟩

lemma dotNorms_eq_some (a b : List JSVal)
    (h : a.length = b.length)
    (ha : ∀ v ∈ a, v.isFinite = true) (hb : ∀ v ∈ b, v.isFinite = true) :
    dotNorms a b = some (specDot (toQs a) (toQs b), sumSq (toQs a), sumSq (toQs b)) := by
  unfold dotNorms
  rw [dotNormsAux_eq_some a b _ h ha hb]
  norm_num

/-- Full characterisation of `cosineSimilarity` on two array inputs.  Shared
helper for the theorems below. -/
lemma cosineSimilarity_some_eq (a b : List JSVal) :
    cosineSimilarity (some a) (some b) =
      if a = [] ∨ b = [] ∨ a.length ≠ b.length ∨
          (∃ v ∈ a, v.isFinite = false) ∨ (∃ v ∈ b, v.isFinite = false) then 0
      else if Real.sqrt ((sumSq (toQs a) : ℚ) : ℝ) * Real.sqrt ((sumSq (toQs b) : ℚ) : ℝ) = 0
        then 0
        else ((specDot (toQs a) (toQs b) : ℚ) : ℝ) /
          (Real.sqrt ((sumSq (toQs a) : ℚ) : ℝ) * Real.sqrt ((sumSq (toQs b) : ℚ) : ℝ)) := by
  by_cases hae : a = []
  · subst hae
    simp [cosineSimilarity]
  · by_cases hbe : b = []
    · subst hbe
      simp [cosineSimilarity]
    · have hal : a.length ≠ 0 := by simpa [List.length_eq_zero] using hae
      have hbl : b.length ≠ 0 := by simpa [List.length_eq_zero] using hbe
      by_cases hlen : a.length = b.length
      · by_cases hfin : (∃ v ∈ a, v.isFinite = false) ∨ (∃ v ∈ b, v.isFinite = false)
        · have hnone : dotNorms a b = none := by
            unfold dotNorms
            exact dotNormsAux_eq_none a b _ hlen hfin
          simp [cosineSimilarity, hal, hbl, hlen, hnone, hae, hbe, hfin]
        · push_neg at hfin
          obtain ⟨hfa, hfb⟩ := hfin
          have ha' : ∀ v ∈ a, v.isFinite = true := by
            intro v hv
            cases hvf : v.isFinite with
            | true => rfl
            | false => exact absurd hvf (hfa v hv)
          have hb' : ∀ v ∈ b, v.isFinite = true := by
            intro v hv
            cases hvf : v.isFinite with
            | true => rfl
            | false => exact absurd hvf (hfb v hv)
          have hsome := dotNorms_eq_some a b hlen ha' hb'
          have hnfin : ¬((∃ v ∈ a, v.isFinite = false) ∨ ∃ v ∈ b, v.isFinite = false) := by
            push_neg
            exact ⟨hfa, hfb⟩
          simp [cosineSimilarity, hal, hbl, hlen, hsome, hae, hbe, hnfin]
      · simp [cosineSimilarity, hal, hbl, hlen, hae, hbe]

/-- **C1.**  `cosineSimilarity` is total (it is a Lean function, raising no
exceptions — the source likewise contains no `throw` and only defined
operations), and its value on every input is characterised exactly as the
specification states: `0` whenever either input is not a sequence, is
empty, the lengths differ, or any element is non-finite after numeric
coercion; otherwise the dot product divided by the product of the two
Euclidean norms, with `0` when either norm is `0` (a zero denominator). -/
theorem cosineSimilarity_spec (aRaw bRaw : Option (List JSVal)) :
    cosineSimilarity aRaw bRaw =
      match aRaw, bRaw with
      | some a, some b =>
        if a = [] ∨ b = [] ∨ a.length ≠ b.length ∨
            (∃ v ∈ a, v.isFinite = false) ∨ (∃ v ∈ b, v.isFinite = false) then 0
        else if Real.sqrt ((sumSq (toQs a) : ℚ) : ℝ) * Real.sqrt ((sumSq (toQs b) : ℚ) : ℝ) = 0
          then 0
          else ((specDot (toQs a) (toQs b) : ℚ) : ℝ) /
            (Real.sqrt ((sumSq (toQs a) : ℚ) : ℝ) * Real.sqrt ((sumSq (toQs b) : ℚ) : ℝ))
      | _, _ => 0 := by
  match aRaw, bRaw with
  | none, none => rfl
  | none, some b => rfl
  | some a, none => rfl
  | some a, some b => exact cosineSimilarity_some_eq a b

/-- **C9.**  For every equal-length, finite-valued, non-zero vector `a`,
`cosineSimilarity(a, a)` is exactly `1` under exact rational arithmetic:
the dot product of `a` with itself equals the squared norm, the denominator
`√S · √S` collapses to `S > 0`, and `S / S = 1`. -/
theorem cosineSimilarity_self (a : List JSVal)
    (hfin : ∀ v ∈ a, v.isFinite = true)
    (hnz : ∃ v ∈ a, v.toQ ≠ 0) :
    cosineSimilarity (some a) (some a) = 1 := by
  obtain ⟨v, hv, hvne⟩ := hnz
  have hane : a ≠ [] := by
    intro h
    subst h
    simp at hv
  have hdotsq : specDot (toQs a) (toQs a) = sumSq (toQs a) := by
    simp only [specDot, sumSq, toQs]
    congr 1
    induction a with
    | nil => rfl
    | cons x xs ih => simp [ih]
  have hS_pos : 0 < sumSq (toQs a) := by
    have hmem : v.toQ * v.toQ ∈ (toQs a).map fun x => x * x := by
      simp only [toQs, List.map_map, List.mem_map]
      exact ⟨v, hv, rfl⟩
    have hle : v.toQ * v.toQ ≤ sumSq (toQs a) := by
      apply List.single_le_sum _ _ hmem
      intro x hx
      simp only [List.mem_map] at hx
      obtain ⟨y, _, rfl⟩ := hx
      exact mul_self_nonneg y
    exact lt_of_lt_of_le (mul_self_pos.mpr hvne) hle
  have hcond : ¬(a = [] ∨ a = [] ∨ a.length ≠ a.length ∨
      (∃ v ∈ a, v.isFinite = false) ∨ (∃ v ∈ a, v.isFinite = false)) := by
    push_neg
    refine ⟨hane, hane, rfl, ?_, ?_⟩ <;>
      · intro w hw
        simp [hfin w hw]
  rw [cosineSimilarity_some_eq, if_neg hcond]
  set S : ℚ := sumSq (toQs a) with hS
  have hSR : (0:ℝ) < (S : ℝ) := by exact_mod_cast hS_pos
  have hsqrt : Real.sqrt (S : ℝ) * Real.sqrt (S : ℝ) = (S : ℝ) :=
    Real.mul_self_sqrt (le_of_lt hSR)
  rw [if_neg (by rw [hsqrt]; exact ne_of_gt hSR), hsqrt, hdotsq]
  exact div_self (ne_of_gt hSR)

/-- Closed witness for `cosineSimilarity_self`: the vector `[3, 4]`. -/
theorem cosineSimilarity_self_witness :
    (∀ v ∈ [JSVal.fin 3, JSVal.fin 4], v.isFinite = true) ∧
    (∃ v ∈ [JSVal.fin 3, JSVal.fin 4], v.toQ ≠ 0) ∧
    cosineSimilarity (some [JSVal.fin 3, JSVal.fin 4]) (some [JSVal.fin 3, JSVal.fin 4]) = 1 :=
  ⟨by decide, by decide,
    cosineSimilarity_self [JSVal.fin 3, JSVal.fin 4] (by decide) (by decide)⟩

/-! ## Descriptor Source Adapter

Two layers, both embedded:

* `src/app/api/embed/route.ts` — the Next.js route handler `POST` that calls
  the external face-server and normalises its response;
* `src/lib/faceServer.ts` — the client helper `embedFace` that calls
  `/api/embed` and turns the route's response into a descriptor or a thrown
  error.
-/

/-- One face item of the provider response (`type FaceItem` in `route.ts`).
`embedding = none` models an absent / non-array `embedding` field. -/
structure FaceItem where
  embedding : Option (List ℚ)
  deriving DecidableEq, Repr

/-- The body of the provider's HTTP response, as observed by `route.ts`:
either text that fails `JSON.parse`, or parsed JSON whose `faces` field is
an array (`some faces`) or absent / not an array (`none`). -/
inductive ProviderBody where
  | unparseable
  | parsed (faces : Option (List FaceItem))
  deriving DecidableEq, Repr

/-- The outcome of `fetch(base + "/embed")` inside `route.ts`: either the
fetch itself rejects (network failure — caught by the outer `try`), or an
HTTP response arrives with success flag `r.ok` and a body. -/
inductive ProviderOutcome where
  | netFail
  | response (rok : Bool) (body : ProviderBody)
  deriving DecidableEq, Repr

/-- What `route.ts` replies to the client: an `ok:false` JSON error with an
HTTP status, or the `ok:true` payload of line 51–57. -/
inductive RouteResp where
  | err (status : ℕ)
  | okResp (facesCount : ℕ) (faces : List FaceItem) (embedding : Option (List ℚ))
      (message : String)
  deriving DecidableEq, Repr

/-- Does a face carry a non-empty embedding array?  This is the predicate of
line 49 of `route.ts`: `Array.isArray(f.embedding) && f.embedding.length > 0`. -/
def FaceItem.hasEmb (f : FaceItem) : Bool :=
  match f.embedding with
  | some l => decide (l ≠ [])
  | none => false

/-- `POST` of `src/app/api/embed/route.ts` (lines 34–57, multipart branch,
`FACE_SERVER_URL` configured), as a function of the provider call's outcome:

* fetch rejection → caught by the `try/catch` → `500` `ok:false` (line 64);
* unparseable body → `502` `ok:false` "JSON 파싱 실패" (line 41);
* non-success status → `502` `ok:false` "face-server error" (line 45);
* otherwise `data.faces` is coerced to `[]` when absent or not an array
  (line 48), `best` is the **first** face with a non-empty embedding
  (line 49), and the reply is `ok:true` with `message = faces.length ?
  "OK" : "NO_FACE"` (lines 51–57). -/
def embedRoutePOST (p : ProviderOutcome) : RouteResp :=
  match p with
  | .netFail => .err 500
  | .response rok body =>
    match body with
    | .unparseable => .err 502
    | .parsed dataFaces =>
      if rok = false then .err 502
      else
        let faces := dataFaces.getD []
        let best := faces.find? FaceItem.hasEmb
        .okResp faces.length faces (best.bind FaceItem.embedding)
          (if faces.length ≠ 0 then "OK" else "NO_FACE")

/-- The parsed JSON shape observed by `embedFace` in `src/lib/faceServer.ts`:
it reads `json.ok` and `json.data.faces` (note: `data`, not the top level —
see the comment on line 22 of `faceServer.ts`). -/
structure EmbedJsonData where
  faces : Option (List FaceItem)
  deriving DecidableEq, Repr

structure EmbedJson where
  ok : Bool
  data : Option EmbedJsonData
  deriving DecidableEq, Repr

/-- The observable outcome of `embedFace` (`src/lib/faceServer.ts`): the
returned descriptor, or which of the three distinct `throw` sites fired. -/
inductive EmbedFaceResult where
  /-- line 35: `return emb` -/
  | success (emb : List ℚ)
  /-- line 29: `throw new Error("얼굴을 찾지 못했어요 (faces=[])")` — the
  "no face" report -/
  | noFaceError
  /-- line 32: `throw new Error("No embedding array in response: ...")` -/
  | noEmbeddingError
  /-- line 19: `throw new Error(detail)` for `!res.ok || !json?.ok` -/
  | httpError
  deriving DecidableEq, Repr

/-- `embedFace` of `src/lib/faceServer.ts` (lines 2–36) as a function of the
`/api/embed` response it observes: the HTTP success flag `res.ok` and the
parsed body (`none` when `JSON.parse` failed).

It reads `json?.data?.faces` and takes `faces?.[0]?.embedding` (line 24) —
the **first** face unconditionally; if that is not an array it throws the
"no face" error when `faces` is exactly `[]`, and the "No embedding array"
error otherwise. -/
def embedFace (resOk : Bool) (json : Option EmbedJson) : EmbedFaceResult :=
  if resOk = false ∨ (json.map EmbedJson.ok).getD false = false then .httpError
  else
    let faces := (json.bind EmbedJson.data).bind EmbedJsonData.faces
    let emb := (faces.getD []).head?.bind FaceItem.embedding
    match emb with
    | some l => .success l
    | none =>
      if faces = some [] then .noFaceError else .noEmbeddingError

/-- **C7, counterexample.**  A provider response with success status whose
body parses but lacks the expected `faces` array (here: a body with no
`faces` field at all) is *not* classified as a transport-class failure: the
route coerces it to an empty face list and replies `ok:true` with message
`"NO_FACE"` — exactly the "no face" report the claim forbids for malformed
responses. -/
theorem embedRoute_malformed_success_is_no_face :
    embedRoutePOST (.response true (.parsed none)) = .okResp 0 [] none "NO_FACE" ∧
    ∀ s, embedRoutePOST (.response true (.parsed none)) ≠ .err s := by
  constructor
  · rfl
  · intro s h
    simp [embedRoutePOST] at h

/-- **C7, amended.**  Full classification of the adapter route: network
failure and non-success status and unparseable bodies are transport-class
(`ok:false` errors, status 500/502); but a success-status parseable body
missing the expected `faces` array is coerced to the empty face list and
reported `ok:true` with message `"NO_FACE"` (it is treated as "no face",
not as a transport failure); with a well-formed `faces` array the message
is `"NO_FACE"` exactly when the provider returned zero faces. -/
theorem embedRoute_classification (p : ProviderOutcome) :
    embedRoutePOST p =
      match p with
      | .netFail => .err 500
      | .response _ .unparseable => .err 502
      | .response false (.parsed _) => .err 502
      | .response true (.parsed none) => .okResp 0 [] none "NO_FACE"
      | .response true (.parsed (some faces)) =>
          .okResp faces.length faces ((faces.find? FaceItem.hasEmb).bind FaceItem.embedding)
            (if faces.length ≠ 0 then "OK" else "NO_FACE") := by
  match p with
  | .netFail => rfl
  | .response true .unparseable => rfl
  | .response false .unparseable => rfl
  | .response false (.parsed df) => rfl
  | .response true (.parsed none) => rfl
  | .response true (.parsed (some faces)) => rfl

/-- `List.find?` returns the first element satisfying the predicate: either
nothing satisfies it, or there is a position `i` whose element satisfies it
while everything before position `i` does not. -/
lemma find?_first {α : Type} (p : α → Bool) (l : List α) :
    (l.find? p = none ∧ ∀ x ∈ l, p x = false) ∨
    (∃ i, ∃ h : i < l.length, p (l.get ⟨i, h⟩) = true ∧
      (∀ x ∈ l.take i, p x = false) ∧ l.find? p = some (l.get ⟨i, h⟩)) := by
  induction l with
  | nil => left; simp
  | cons a as ih =>
    cases hpa : p a with
    | true =>
      right
      exact ⟨0, Nat.succ_pos _, hpa, by simp, by simp [List.find?, hpa]⟩
    | false =>
      rcases ih with ⟨hnone, hall⟩ | ⟨i, hi, hp, hbefore, hfind⟩
      · left
        refine ⟨by simp [List.find?, hpa, hnone], ?_⟩
        intro x hx
        rcases List.mem_cons.mp hx with rfl | hx'
        · exact hpa
        · exact hall x hx'
      · right
        refine ⟨i + 1, Nat.succ_lt_succ hi, hp, ?_, by simp [List.find?, hpa, hfind]⟩
        intro x hx
        rcases List.mem_cons.mp (by simpa using hx) with rfl | hx'
        · exact hpa
        · exact hbefore x hx'

/-- A list element at a position below `n` belongs to the `n`-prefix. -/
lemma get_mem_take {α : Type} (l : List α) {i n : ℕ} (hi : i < l.length) (hn : i < n) :
    l.get ⟨i, hi⟩ ∈ l.take n := by
  have hlen : i < (l.take n).length := by
    simp only [List.length_take]
    omega
  have h2 : (l.take n).get ⟨i, hlen⟩ = l.get ⟨i, hi⟩ := by
    simp [List.getElem_take]
  rw [← h2]
  exact List.get_mem _ _ _

/-- **C8, counterexample.**  Provider response with two faces, the first
lacking an embedding, the second carrying the non-empty embedding `[1]`.
The route-level pick does return the second face's descriptor, but the
client adapter `embedFace` of `src/lib/faceServer.ts` — given exactly that
face list under `json.data.faces` — reads only `faces[0].embedding` and
throws the "No embedding array" error instead of returning `[1]`: descriptor
resolution does *not* return the first face with a non-empty embedding. -/
theorem embedFace_not_first_nonempty_pick :
    embedRoutePOST (.response true (.parsed (some [⟨none⟩, ⟨some [1]⟩])))
      = .okResp 2 [⟨none⟩, ⟨some [1]⟩] (some [1]) "OK" ∧
    embedFace true (some ⟨true, some ⟨some [⟨none⟩, ⟨some [1]⟩]⟩⟩)
      = .noEmbeddingError ∧
    ∀ l, embedFace true (some ⟨true, some ⟨some [⟨none⟩, ⟨some [1]⟩]⟩⟩)
      ≠ .success l := by
  refine ⟨rfl, rfl, ?_⟩
  intro l h
  simp [embedFace, FaceItem.hasEmb] at h

/-- **C8, amended.**  The two layers of descriptor resolution disagree.  The
server route (`route.ts`) does implement the claimed policy: its `embedding`
field is the descriptor of the first face, in provider response order, that
carries a non-empty embedding (and `none` when no face does).  The client
adapter `embedFace` (`faceServer.ts`) instead reads only the first face of
`json.data.faces`: it returns that face's embedding whenever it is an array
(even an empty one) and throws otherwise, regardless of later faces. -/
theorem descriptor_pick_policy (faces : List FaceItem) :
    ((∀ f ∈ faces, f.hasEmb = false) →
      embedRoutePOST (.response true (.parsed (some faces)))
        = .okResp faces.length faces none
            (if faces.length ≠ 0 then "OK" else "NO_FACE")) ∧
    (∀ i, ∀ h : i < faces.length, (faces.get ⟨i, h⟩).hasEmb = true →
      (∀ f ∈ faces.take i, f.hasEmb = false) →
      embedRoutePOST (.response true (.parsed (some faces)))
        = .okResp faces.length faces (faces.get ⟨i, h⟩).embedding
            (if faces.length ≠ 0 then "OK" else "NO_FACE")) ∧
    (∀ f₀ rest, faces = f₀ :: rest →
      embedFace true (some ⟨true, some ⟨some faces⟩⟩)
        = match f₀.embedding with
          | some l => .success l
          | none => .noEmbeddingError) := by
  refine ⟨?_, ?_, ?_⟩
  · intro hall
    have hfind : faces.find? FaceItem.hasEmb = none := by
      rcases find?_first FaceItem.hasEmb faces with ⟨hn, _⟩ | ⟨i, hi, hp, _, _⟩
      · exact hn
      · refine absurd (hall _ (List.get_mem faces i hi)) ?_
        simp only [List.get_eq_getElem] at hp
        simp [hp]
    simp [embedRoutePOST, hfind]
  · intro i h hp hbefore
    have hfind : faces.find? FaceItem.hasEmb = some (faces.get ⟨i, h⟩) := by
      rcases find?_first FaceItem.hasEmb faces with ⟨_, hall⟩ | ⟨j, hj, hpj, hbj, hfj⟩
      · refine absurd (hall _ (List.get_mem faces i h)) ?_
        simp only [List.get_eq_getElem] at hp
        simp [hp]
      · rcases lt_trichotomy i j with hlt | rfl | hgt
        · have hcontra : (faces.get ⟨i, h⟩).hasEmb = false :=
            hbj _ (get_mem_take faces h hlt)
          rw [hcontra] at hp
          exact absurd hp (by simp)
        · exact hfj
        · have hcontra : (faces.get ⟨j, hj⟩).hasEmb = false :=
            hbefore _ (get_mem_take faces hj hgt)
          rw [hcontra] at hpj
          exact absurd hpj (by simp)
    have hpick : (faces.find? FaceItem.hasEmb).bind FaceItem.embedding
        = (faces.get ⟨i, h⟩).embedding := by
      rw [hfind, Option.bind]
    simp [embedRoutePOST, hpick]
  · intro f₀ rest hf
    subst hf
    cases hemb : f₀.embedding with
    | some l => simp [embedFace, hemb]
    | none =>
      simp [embedFace, hemb]

/-! ## Scored candidates and the stable score sort

Both matching variants in `find-client.tsx` keep scored candidates — a
photo (identified here by its enumeration index in the candidate pool) plus
a similarity score — and sort them with
`arr.sort((a, b) => b.score - a.score)`.  `Array.prototype.sort` is
guaranteed stable (ES2019), so this is the stable descending sort by score:
equal-score entries keep their array order.  `sortByScore` below is the
stable insertion sort computing exactly that. -/

structure Scored where
  idx : ℕ
  score : ℚ
  deriving DecidableEq, Repr

def insertByScore (x : Scored) : List Scored → List Scored
  | [] => [x]
  | y :: ys => if y.score ≤ x.score then x :: y :: ys else y :: insertByScore x ys

def sortByScore : List Scored → List Scored
  | [] => []
  | x :: xs => insertByScore x (sortByScore xs)

/-- Descending order on scores. -/
def SortedDesc (l : List Scored) : Prop :=
  l.Pairwise fun a b => b.score ≤ a.score

lemma insertByScore_perm (x : Scored) (l : List Scored) :
    (insertByScore x l).Perm (x :: l) := by
  induction l with
  | nil => exact List.Perm.refl _
  | cons y ys ih =>
    by_cases h : y.score ≤ x.score
    · simp only [insertByScore, if_pos h]
      exact List.Perm.refl _
    · simp only [insertByScore, if_neg h]
      exact (ih.cons y).trans (List.Perm.swap x y ys)

lemma sortByScore_perm (l : List Scored) : (sortByScore l).Perm l := by
  induction l with
  | nil => exact List.Perm.refl _
  | cons x xs ih =>
    exact (insertByScore_perm x (sortByScore xs)).trans (ih.cons x)

lemma mem_sortByScore {x : Scored} {l : List Scored} :
    x ∈ sortByScore l ↔ x ∈ l :=
  (sortByScore_perm l).mem_iff

lemma insertByScore_sorted (x : Scored) (l : List Scored) (hl : SortedDesc l) :
    SortedDesc (insertByScore x l) := by
  induction l with
  | nil => simp [insertByScore, SortedDesc]
  | cons y ys ih =>
    rcases List.pairwise_cons.mp hl with ⟨hy, hys⟩
    by_cases h : y.score ≤ x.score
    · simp only [insertByScore, if_pos h]
      refine List.pairwise_cons.mpr ⟨?_, hl⟩
      intro z hz
      rcases List.mem_cons.mp hz with rfl | hz'
      · exact h
      · exact le_trans (hy z hz') h
    · simp only [insertByScore, if_neg h]
      refine List.pairwise_cons.mpr ⟨?_, ih hys⟩
      intro z hz
      rcases List.mem_cons.mp ((insertByScore_perm x ys).mem_iff.mp hz) with rfl | hz'
      · exact le_of_lt (lt_of_not_le h)
      · exact hy z hz'

lemma sortByScore_sorted (l : List Scored) : SortedDesc (sortByScore l) := by
  induction l with
  | nil => simp [sortByScore, SortedDesc]
  | cons x xs ih => exact insertByScore_sorted x (sortByScore xs) ih

/-- The stability relation: among equal scores, the entry with the smaller
pool-enumeration index comes first. -/
def TieLt (a b : Scored) : Prop := a.score = b.score → a.idx < b.idx

lemma insertByScore_tie (x : Scored) (l : List Scored)
    (hs : SortedDesc l) (hp : l.Pairwise TieLt)
    (hx : ∀ y ∈ l, x.score = y.score → x.idx < y.idx) :
    (insertByScore x l).Pairwise TieLt := by
  induction l with
  | nil => simp [insertByScore]
  | cons y ys ih =>
    rcases List.pairwise_cons.mp hp with ⟨hy, hys⟩
    rcases List.pairwise_cons.mp hs with ⟨hsy, hsys⟩
    by_cases h : y.score ≤ x.score
    · simp only [insertByScore, if_pos h]
      refine List.pairwise_cons.mpr ⟨?_, hp⟩
      intro z hz
      exact hx z hz
    · simp only [insertByScore, if_neg h]
      refine List.pairwise_cons.mpr ⟨?_, ?_⟩
      · intro z hz
        rcases List.mem_cons.mp ((insertByScore_perm x ys).mem_iff.mp hz) with rfl | hz'
        · intro heq
          exact absurd heq.le h
        · exact hy z hz'
      · exact ih hsys hys fun z hz => hx z (List.mem_cons_of_mem _ hz)

lemma sortByScore_tie (l : List Scored) (hp : l.Pairwise TieLt) :
    (sortByScore l).Pairwise TieLt := by
  induction l with
  | nil => simp [sortByScore]
  | cons x xs ih =>
    rcases List.pairwise_cons.mp hp with ⟨hx, hxs⟩
    refine insertByScore_tie x (sortByScore xs) (sortByScore_sorted xs) (ih hxs) ?_
    intro y hy
    exact hx y (mem_sortByScore.mp hy)

/-! ## Threshold policy: the two publish steps

Face-api variant (`find-client.tsx` lines 298–307 and 313–316): filter the
best-of list by the threshold, sort, and show at most 8 — with *no*
fallback; when nothing meets the threshold the published list is empty.

Embedding variant (`find-client.tsx` lines 1050–1060): sort all scored
candidates, filter by the threshold and cap at 24; then
`(filtered.length ? filtered : scored.slice(0, 24)).slice(0, 8)` — when the
filtered list is empty it *unconditionally* falls back to the top of the
unfiltered list.  Note that neither function takes any fallback-mode
parameter: the embedding variant's fallback is default behaviour (announced
by a message, lines 1063–1067, but not opt-in). -/

/-- The face-api publish step: `scoredAll.filter(x => x.score >= threshold)
.sort((a,b) => b.score - a.score)` then `slice(0, 8)`. -/
def publishTop (threshold : ℚ) (scored : List Scored) : List Scored :=
  (sortByScore (scored.filter fun e => threshold ≤ e.score)).take 8

/-- The embedding-variant publish step, lines 1050–1060 of
`find-client.tsx`:
`scored.sort(...)`, `filtered = scored.filter(x => x.score >= threshold)
.slice(0, 24)`, `top = (filtered.length ? filtered : scored.slice(0, 24))
.slice(0, 8)`. -/
def runMatchingEmbedPublish (threshold : ℚ) (scored : List Scored) : List Scored :=
  let sorted := sortByScore scored
  let filtered := (sorted.filter fun e => threshold ≤ e.score).take 24
  (if filtered.length ≠ 0 then filtered else sorted.take 24).take 8

/-- **C5, counterexample.**  One candidate scoring `1` under threshold `2`:
no entry meets the threshold, yet the embedding-variant publish step
returns that candidate anyway.  `runMatchingEmbedPublish` has no
fallback-mode parameter at all — the below-threshold fallback is
unconditional default behaviour, so "without that mode the published result
is empty" fails. -/
theorem embedPublish_fallback_is_default :
    (¬ (2 : ℚ) ≤ (1 : ℚ)) ∧
    runMatchingEmbedPublish 2 [⟨0, 1⟩] = [⟨0, 1⟩] ∧
    runMatchingEmbedPublish 2 [⟨0, 1⟩] ≠ [] := by
  refine ⟨by norm_num, ?_, ?_⟩ <;> decide

/-- **C5, amended.**  The below-threshold behaviour of the two publish
steps, as implemented: (a) when no entry meets the threshold the
embedding-variant publish step *always* returns the top 8 of the sorted
scored list (an unconditional default fallback, with no opt-in mode);
(b) when some entry meets the threshold it returns the top 8 of the
threshold-filtered list; (c) the face-api publish step has no fallback:
every published entry meets the threshold, and in particular it publishes
the empty list when no entry meets the threshold. -/
theorem thresholdFallback_policy (threshold : ℚ) (scored : List Scored) :
    ((∀ e ∈ scored, e.score < threshold) →
      runMatchingEmbedPublish threshold scored = (sortByScore scored).take 8) ∧
    ((∃ e ∈ scored, threshold ≤ e.score) →
      runMatchingEmbedPublish threshold scored
        = ((sortByScore scored).filter fun e => threshold ≤ e.score).take 8) ∧
    (∀ e ∈ publishTop threshold scored, threshold ≤ e.score) ∧
    ((∀ e ∈ scored, e.score < threshold) → publishTop threshold scored = []) := by
  refine ⟨?_, ?_, ?_, ?_⟩
  · intro hall
    have hfilter : (sortByScore scored).filter (fun e => threshold ≤ e.score) = [] := by
      rw [List.filter_eq_nil_iff]
      intro e he
      simpa using not_le.mpr (hall e (mem_sortByScore.mp he))
    simp only [runMatchingEmbedPublish, hfilter]
    simp [List.take_take]
  · intro ⟨e, he, hthr⟩
    have hmem : e ∈ (sortByScore scored).filter (fun e => threshold ≤ e.score) := by
      rw [List.mem_filter]
      exact ⟨mem_sortByScore.mpr he, by simpa using hthr⟩
    have hne : (sortByScore scored).filter (fun e => threshold ≤ e.score) ≠ [] := by
      intro hnil
      rw [hnil] at hmem
      exact absurd hmem (List.not_mem_nil e)
    have hlen : (((sortByScore scored).filter fun e => threshold ≤ e.score).take 24).length ≠ 0 := by
      simp only [List.length_take, ne_eq]
      intro hmin
      rcases Nat.min_eq_zero_iff.mp hmin with h24 | hlen0
      · omega
      · exact hne (List.length_eq_zero.mp hlen0)
    simp only [runMatchingEmbedPublish]
    rw [if_pos hlen, List.take_take]
    norm_num
  · intro e he
    have := List.mem_filter.mp (mem_sortByScore.mp (List.mem_of_mem_take he))
    simpa using this.2
  · intro hall
    have hfilter : scored.filter (fun e => threshold ≤ e.score) = [] := by
      rw [List.filter_eq_nil_iff]
      intro e he
      simpa using not_le.mpr (hall e he)
    simp [publishTop, hfilter, sortByScore]

/-- Closed witness for `thresholdFallback_policy`, exercising both the
all-below-threshold fallback branch and the some-above-threshold branch. -/
theorem thresholdFallback_policy_witness :
    ((∀ e ∈ [(⟨0, 0⟩ : Scored)], e.score < 1) ∧
      runMatchingEmbedPublish 1 [⟨0, 0⟩] = (sortByScore [⟨0, 0⟩]).take 8) ∧
    ((∃ e ∈ [(⟨0, 2⟩ : Scored)], (1 : ℚ) ≤ e.score) ∧
      runMatchingEmbedPublish 1 [⟨0, 2⟩]
        = ((sortByScore [⟨0, 2⟩]).filter fun e => (1 : ℚ) ≤ e.score).take 8) :=
  ⟨⟨by decide, (thresholdFallback_policy 1 [⟨0, 0⟩]).1 (by decide)⟩,
   ⟨by decide, (thresholdFallback_policy 1 [⟨0, 2⟩]).2.1 (by decide)⟩⟩

/-! ## The Progressive Top-K Matcher (face-api variant)

`runMatching` of `find-client.tsx` (lines 201–331), from the point where the
query (selfie) descriptor has been resolved.  The embedding is a state
machine producing a *trace* of observable events:

* the candidate pool is the enumerated list of per-candidate world
  outcomes: `none` = the candidate's fetch/decode/detection threw (caught
  by `scoreOne`'s `catch`, line 262), `some sims` = the similarity of each
  detected face against the query descriptor (empty = zero detections,
  line 253).  These outcomes are fixed per candidate — the abstraction of
  "the same unchanged pool";
* the cooperative abort flag `abortRef.current` is modelled by a fuel
  counter `t`: the first `t` reads of the flag return `false`, all later
  reads return `true` (the flag, once set by `abortScan`, is never
  cleared during a session).  Each read of the flag that returns `true` is
  recorded as an `abortSeen` event;
* worker-completion nondeterminism: within a chunk,
  `Promise.all(chunk.map(scoreOne))` starts the workers in input order
  (each runs synchronously up to its first await, which is where the
  abort check of line 243 happens) and resolves with results in input
  order regardless of completion order.  `promiseAll` embeds this: it takes
  an arbitrary completion order (from the schedule `sched`, one order per
  chunk) and reassembles results positionally;
* the scheduler loop: batches of `scanBatchSize` (`pool.slice(start,
  end)`, line 277), inner chunks of `CONCURRENCY` (line 285), merge
  admitting only `r && r.score >= 0` (line 289), progress updates
  (line 293), `keepTop` truncation to `TOP_KEEP` (lines 268–271, 296), and
  the per-batch and final publish steps (lines 298–307, 311–316).

The model keeps the batch size, concurrency, `TOP_KEEP` and pool ceiling as
parameters of a `MatchConfig`; the source fixes them to `60`, `2`, `25`,
`240` (`sourceConfig`).  The display cap `8` is hard-coded, as in the
source. -/

/-- A candidate's world outcome when scored (see above). -/
abbrev Cand := Option (List ℚ)

structure MatchConfig where
  scanBatchSize : ℕ
  concurrency : ℕ
  topKeep : ℕ
  threshold : ℚ
  scanMax : ℕ
  deriving DecidableEq, Repr

/-- The constants of the source: `scanBatchSize = 60` (line 97),
`CONCURRENCY = 2` (line 240), `TOP_KEEP = 25` (line 239),
`scanMax = 240` (line 98). -/
def sourceConfig (threshold : ℚ) : MatchConfig :=
  { scanBatchSize := 60, concurrency := 2, topKeep := 25,
    threshold := threshold, scanMax := 240 }

/-- Observable events of one match session, in temporal order. -/
inductive Ev where
  /-- the `for` loop entered a batch body (line 279 `setMatchMessage`). -/
  | batchStart (start : ℕ)
  /-- a read of `abortRef.current` returned `true`. -/
  | abortSeen
  /-- `setProgress({done, total})` (line 293, and the initial line 214). -/
  | progress (done total : ℕ)
  /-- a per-batch `setMatches` (lines 302/306, and the initial line 211). -/
  | publish (m : List Scored)
  /-- the post-loop `setMatches(finalTop)` (line 316). -/
  | publishFinal (m : List Scored)
  deriving DecidableEq, Repr

/-- Terminal session states.  `failed` is the `catch` branch of
`runMatching` (line 325); nothing in the scanning loop throws (every
per-candidate failure is absorbed by `scoreOne`'s own `catch`), so the
model never produces it — it exists so that "never `failed`" is statable.
`notStarted` is the early return on an empty pool (line 202). -/
inductive SessState where
  | notStarted
  | completed
  | cancelled
  | failed
  deriving DecidableEq, Repr

structure MatchSt where
  /-- `scoredAll` (line 238). -/
  scored : List Scored
  /-- abort-flag fuel: number of remaining reads that return `false`. -/
  t : ℕ
  /-- chunk counter, indexing the completion-order schedule. -/
  k : ℕ
  /-- the trace so far. -/
  evs : List Ev
  deriving DecidableEq, Repr

/-- One read of `abortRef.current`. -/
def doCheck (s : MatchSt) : Bool × MatchSt :=
  if s.t = 0 then (true, { s with evs := s.evs ++ [.abortSeen] })
  else (false, { s with t := s.t - 1 })

/-- Lines 255–259: `let best = -1; for (const d of detections) { const s =
cosineSimilarity(...); if (s > best) best = s; }`. -/
def bestOf (sims : List ℚ) : ℚ := sims.foldl max (-1)

/-- `scoreOne` (lines 242–266): abort check, then the candidate's world
outcome — `none` on a thrown fetch/detection (the `catch`), `none` on zero
detections, otherwise the best face similarity. -/
def scoreOne (c : ℕ × Cand) (s : MatchSt) : Option Scored × MatchSt :=
  let chk := doCheck s
  if chk.1 then (none, chk.2)
  else
    match c.2 with
    | none => (none, chk.2)
    | some sims => if sims.isEmpty then (none, chk.2) else (some ⟨c.1, bestOf sims⟩, chk.2)

/-- `chunk.map(scoreOne)`: the workers start in input order (each runs its
abort check synchronously before its first await). -/
def scoreChunk (chunk : List (ℕ × Cand)) (s : MatchSt) : List (Option Scored) × MatchSt :=
  match chunk with
  | [] => ([], s)
  | c :: cs =>
    let rc := scoreOne c s
    let rest := scoreChunk cs rc.2
    (rc.1 :: rest.1, rest.2)

/-- `Promise.all`: workers complete in an arbitrary order, and the resolved
array holds each worker's result at the worker's input position.  The
completion order contributes the pairs `(input index, value)`; the resolved
array is read back positionally. -/
def promiseAll (vs : List (Option Scored)) (order : List ℕ) : List (Option Scored) :=
  let completions := order.map fun i => (i, vs.getD i none)
  (List.range vs.length).map fun i => (completions.lookup i).getD none

/-- The merge step (lines 288–291): `if (r && r.score >= 0)
scoredAll.push(r)`. -/
def mergeResults (scored : List Scored) (rs : List (Option Scored)) : List Scored :=
  scored ++ rs.filterMap fun r => r.bind fun x => if 0 ≤ x.score then some x else none

/-- The inner `while (i < batch.length)` loop (lines 281–294): abort check,
`chunk = batch.slice(i, i + CONCURRENCY)`, score, merge, `i += CONCURRENCY`,
`setProgress({done: Math.min(pool.length, start + i), total: pool.length})`.

The loop consumes `CONCURRENCY` candidates per iteration; `fuel` is any
upper bound on the number of remaining candidates (callers pass the batch
length), so the recursion is structural; the `fuel = 0` equation is never
reached from such calls. -/
def runChunks (cfg : MatchConfig) (sched : ℕ → ℕ → List ℕ) (L start : ℕ) :
    ℕ → List (ℕ × Cand) → ℕ → MatchSt → MatchSt
  | _, [], _, s => s
  | 0, _ :: _, _, s => s
  | fuel + 1, c :: rest, i, s =>
    let chk := doCheck s
    if chk.1 then chk.2
    else
      let chunk := c :: rest.take (cfg.concurrency - 1)
      let sc := scoreChunk chunk chk.2
      let rs' := promiseAll sc.1 (sched sc.2.k chunk.length)
      let s₃ := { sc.2 with k := sc.2.k + 1, scored := mergeResults sc.2.scored rs' }
      let i' := i + cfg.concurrency
      let s₄ := { s₃ with evs := s₃.evs ++ [.progress (min L (start + i')) L] }
      runChunks cfg sched L start fuel (rest.drop (cfg.concurrency - 1)) i' s₄

/-- The outer `for (let start = 0; ...; start += scanBatchSize)` loop
(lines 273–309): abort check (line 274), `batch = pool.slice(start, end)`,
the chunk loop, `keepTop(scoredAll)` (sort and truncate to `TOP_KEEP`,
lines 268–271, 296), and the per-batch publish (lines 298–307; both
branches of the `if` publish `top` — the `else` publishes `[]`, which is
`top` itself in that branch).  `fuel` is any upper bound on the remaining
pool size (callers pass the pool length). -/
def runBatches (cfg : MatchConfig) (sched : ℕ → ℕ → List ℕ) (L : ℕ) :
    ℕ → List (ℕ × Cand) → ℕ → MatchSt → MatchSt
  | _, [], _, s => s
  | 0, _ :: _, _, s => s
  | fuel + 1, c :: rest, start, s =>
    let chk := doCheck s
    if chk.1 then chk.2
    else
      let s₂ := { chk.2 with evs := chk.2.evs ++ [.batchStart start] }
      let batch := c :: rest.take (cfg.scanBatchSize - 1)
      let s₃ := runChunks cfg sched L start batch.length batch 0 s₂
      let s₄ := { s₃ with scored := (sortByScore s₃.scored).take cfg.topKeep }
      let top := publishTop cfg.threshold s₄.scored
      let s₅ := { s₄ with evs := s₄.evs ++ [.publish top] }
      runBatches cfg sched L fuel (rest.drop (cfg.scanBatchSize - 1)) (start + cfg.scanBatchSize) s₅

/-- `runMatching` (lines 201–331) from the point where the query descriptor
is available: the empty-pool early return (line 202), the initial
`setMatches([])` / `setProgress({done: 0, total:
Math.min(scanMax, eventPhotos.length)})` (lines 211, 214), the pool slice
`eventPhotos.slice(0, total)` (lines 235–236), the batch loop, the
post-loop abort check `if (abortRef.current) return` (line 311 — the
cancelled exit, keeping the last published results), and otherwise the
final sort / filter / `slice(0, 8)` / `setMatches(finalTop)`
(lines 313–316). -/
def runMatching (cfg : MatchConfig) (sched : ℕ → ℕ → List ℕ)
    (photos : List Cand) (t : ℕ) : MatchSt × SessState :=
  if photos.isEmpty then ({ scored := [], t := t, k := 0, evs := [] }, .notStarted)
  else
    let L := min cfg.scanMax photos.length
    let pool := (photos.take cfg.scanMax).enum
    let s₀ : MatchSt := { scored := [], t := t, k := 0, evs := [.publish [], .progress 0 L] }
    let s₁ := runBatches cfg sched L pool.length pool 0 s₀
    let chk := doCheck s₁
    if chk.1 then (chk.2, .cancelled)
    else
      let sorted := sortByScore chk.2.scored
      let finalTop := (sorted.filter fun e => cfg.threshold ≤ e.score).take 8
      ({ chk.2 with scored := sorted, evs := chk.2.evs ++ [.publishFinal finalTop] }, .completed)

/-- The progress updates of a trace, in publication order. -/
def progressEvents (evs : List Ev) : List (ℕ × ℕ) :=
  evs.filterMap fun e =>
    match e with
    | .progress d tot => some (d, tot)
    | _ => none

/-- Every result list published by a trace (`setMatches` calls). -/
def publishedLists (evs : List Ev) : List (List Scored) :=
  evs.filterMap fun e =>
    match e with
    | .publish m => some m
    | .publishFinal m => some m
    | _ => none

def hasBatchStart (evs : List Ev) : Bool :=
  evs.any fun e =>
    match e with
    | .batchStart _ => true
    | _ => false

/-- No batch is started after any observation of the abort flag being set. -/
def noStartAfterAbort : List Ev → Bool
  | [] => true
  | .abortSeen :: rest => (!hasBatchStart rest) && noStartAfterAbort rest
  | _ :: rest => noStartAfterAbort rest

/-! ### Trace invariants: cancellation (C4) -/

lemma hasBatchStart_append (a b : List Ev) :
    hasBatchStart (a ++ b) = (hasBatchStart a || hasBatchStart b) := by
  simp [hasBatchStart, List.any_append]

lemma hasBatchStart_single_eq_false (e : Ev) (he : ∀ n, e ≠ Ev.batchStart n) :
    hasBatchStart [e] = false := by
  cases e with
  | batchStart n => exact absurd rfl (he n)
  | abortSeen => rfl
  | progress d tot => rfl
  | publish m => rfl
  | publishFinal m => rfl

/-- Appending an event keeps `noStartAfterAbort`, provided the event is not
a batch start or no abort has been observed yet. -/
lemma noStartAfterAbort_append (evs : List Ev) (e : Ev)
    (h : noStartAfterAbort evs = true)
    (he : (∀ n, e ≠ Ev.batchStart n) ∨ Ev.abortSeen ∉ evs) :
    noStartAfterAbort (evs ++ [e]) = true := by
  induction evs with
  | nil =>
    cases e with
    | batchStart n => rfl
    | abortSeen => rfl
    | progress d tot => rfl
    | publish m => rfl
    | publishFinal m => rfl
  | cons x rest ih =>
    have hrest : Ev.abortSeen ∉ x :: rest → Ev.abortSeen ∉ rest := by
      intro hx hmem
      exact hx (List.mem_cons_of_mem _ hmem)
    cases x with
    | abortSeen =>
      have hel : ∀ n, e ≠ Ev.batchStart n := by
        rcases he with h' | h'
        · exact h'
        · exact absurd (List.mem_cons_self _ _) h'
      simp only [noStartAfterAbort, Bool.and_eq_true, Bool.not_eq_true'] at h
      obtain ⟨h1, h2⟩ := h
      simp only [List.cons_append, noStartAfterAbort, Bool.and_eq_true, Bool.not_eq_true']
      constructor
      · show hasBatchStart (rest ++ [e]) = false
        rw [hasBatchStart_append, h1, hasBatchStart_single_eq_false e hel]
        rfl
      · exact ih h2 (Or.inl hel)
    | batchStart n =>
      simp only [noStartAfterAbort] at h
      simp only [List.cons_append, noStartAfterAbort]
      exact ih h (he.imp id hrest)
    | progress d tot =>
      simp only [noStartAfterAbort] at h
      simp only [List.cons_append, noStartAfterAbort]
      exact ih h (he.imp id hrest)
    | publish m =>
      simp only [noStartAfterAbort] at h
      simp only [List.cons_append, noStartAfterAbort]
      exact ih h (he.imp id hrest)
    | publishFinal m =>
      simp only [noStartAfterAbort] at h
      simp only [List.cons_append, noStartAfterAbort]
      exact ih h (he.imp id hrest)

/-- Invariant carried through the scanning loop: once the abort flag has
been observed set, the fuel is exhausted (the flag stays set); no batch
start follows an abort observation; and the final publish has not happened
yet. -/
def MInv (s : MatchSt) : Prop :=
  (Ev.abortSeen ∈ s.evs → s.t = 0) ∧
  noStartAfterAbort s.evs = true ∧
  ∀ m, Ev.publishFinal m ∉ s.evs

lemma doCheck_minv {s : MatchSt} (h : MInv s) : MInv (doCheck s).2 := by
  obtain ⟨h1, h2, h3⟩ := h
  by_cases ht : s.t = 0
  · have heq : (doCheck s).2 = { s with evs := s.evs ++ [Ev.abortSeen] } := by
      simp [doCheck, ht]
    rw [heq]
    refine ⟨fun _ => ht, ?_, ?_⟩
    · exact noStartAfterAbort_append _ _ h2 (Or.inl (by intro n h; exact Ev.noConfusion h))
    · intro m hm
      rcases List.mem_append.mp hm with hm' | hm'
      · exact h3 m hm'
      · simp at hm'
  · have heq : (doCheck s).2 = { s with t := s.t - 1 } := by
      simp [doCheck, ht]
    rw [heq]
    exact ⟨fun hmem => absurd (h1 hmem) ht, h2, h3⟩

lemma doCheck_evs_of_false {s : MatchSt} (h : (doCheck s).1 = false) :
    (doCheck s).2.evs = s.evs ∧ s.t ≠ 0 := by
  by_cases ht : s.t = 0
  · simp [doCheck, ht] at h
  · simp [doCheck, ht]

lemma scoreOne_minv (c : ℕ × Cand) {s : MatchSt} (h : MInv s) :
    MInv (scoreOne c s).2 := by
  have := doCheck_minv (s := s) h
  by_cases hc : (doCheck s).1
  · simp only [scoreOne, hc, if_true]
    exact this
  · simp only [scoreOne, hc, Bool.false_eq_true, if_false]
    match c.2 with
    | none => exact this
    | some sims =>
      by_cases he : sims.isEmpty
      · simp only [he, if_true]
        exact this
      · simp only [he, Bool.false_eq_true, if_false]
        exact this

lemma scoreChunk_minv (chunk : List (ℕ × Cand)) {s : MatchSt} (h : MInv s) :
    MInv (scoreChunk chunk s).2 := by
  induction chunk generalizing s with
  | nil => exact h
  | cons c cs ih => exact ih (scoreOne_minv c h)

lemma minv_append_progress {s : MatchSt} (h : MInv s) (d tot : ℕ) :
    MInv { s with evs := s.evs ++ [Ev.progress d tot] } := by
  obtain ⟨h1, h2, h3⟩ := h
  refine ⟨?_, ?_, ?_⟩
  · intro hmem
    rcases List.mem_append.mp hmem with hm | hm
    · exact h1 hm
    · simp at hm
  · exact noStartAfterAbort_append _ _ h2 (Or.inl (by intro n hn; exact Ev.noConfusion hn))
  · intro m hm
    rcases List.mem_append.mp hm with hm' | hm'
    · exact h3 m hm'
    · simp at hm'

lemma minv_append_publish {s : MatchSt} (h : MInv s) (l : List Scored) :
    MInv { s with evs := s.evs ++ [Ev.publish l] } := by
  obtain ⟨h1, h2, h3⟩ := h
  refine ⟨?_, ?_, ?_⟩
  · intro hmem
    rcases List.mem_append.mp hmem with hm | hm
    · exact h1 hm
    · simp at hm
  · exact noStartAfterAbort_append _ _ h2 (Or.inl (by intro n hn; exact Ev.noConfusion hn))
  · intro m hm
    rcases List.mem_append.mp hm with hm' | hm'
    · exact h3 m hm'
    · simp at hm'

lemma runChunks_minv (cfg : MatchConfig) (sched : ℕ → ℕ → List ℕ) (L start : ℕ) :
    ∀ (fuel : ℕ) (rem : List (ℕ × Cand)) (i : ℕ) (s : MatchSt), MInv s →
      MInv (runChunks cfg sched L start fuel rem i s) := by
  intro fuel
  induction fuel with
  | zero =>
    intro rem i s h
    cases rem with
    | nil => exact h
    | cons c rest => exact h
  | succ fuel ih =>
    intro rem i s h
    cases rem with
    | nil => exact h
    | cons c rest =>
      simp only [runChunks]
      by_cases hc : (doCheck s).1
      · simp only [hc, if_true]
        exact doCheck_minv h
      · simp only [hc, Bool.false_eq_true, if_false]
        apply ih
        apply minv_append_progress
        exact scoreChunk_minv _ (doCheck_minv h)

lemma runBatches_minv (cfg : MatchConfig) (sched : ℕ → ℕ → List ℕ) (L : ℕ) :
    ∀ (fuel : ℕ) (rem : List (ℕ × Cand)) (start : ℕ) (s : MatchSt), MInv s →
      MInv (runBatches cfg sched L fuel rem start s) := by
  intro fuel
  induction fuel with
  | zero =>
    intro rem start s h
    cases rem with
    | nil => exact h
    | cons c rest => exact h
  | succ fuel ih =>
    intro rem start s h
    cases rem with
    | nil => exact h
    | cons c rest =>
      simp only [runBatches]
      by_cases hc : (doCheck s).1
      · simp only [hc, if_true]
        exact doCheck_minv h
      · simp only [hc, Bool.false_eq_true, if_false]
        apply ih
        apply minv_append_publish
        have hs2 : MInv { (doCheck s).2 with evs := (doCheck s).2.evs ++ [Ev.batchStart start] } := by
          obtain ⟨hevs, ht⟩ := doCheck_evs_of_false (s := s) (by simpa using hc)
          have hnomem : Ev.abortSeen ∉ (doCheck s).2.evs := by
            rw [hevs]
            intro hmem
            exact ht (h.1 hmem)
          have hmv := doCheck_minv (s := s) h
          refine ⟨?_, ?_, ?_⟩
          · intro hmem
            rcases List.mem_append.mp hmem with hm | hm
            · exact absurd hm hnomem
            · simp at hm
          · exact noStartAfterAbort_append _ _ hmv.2.1 (Or.inr hnomem)
          · intro m hm
            rcases List.mem_append.mp hm with hm' | hm'
            · exact hmv.2.2 m hm'
            · simp at hm'
        exact runChunks_minv cfg sched L start _ _ 0 _ hs2

/-- **C4.**  Once the cancellation flag is set during scanning (i.e. the
trace contains an observation of the abort flag being `true`): the session
ends in the `Cancelled` state, never in `Failed`; no batch is started after
any abort observation (`noStartAfterAbort`); and the post-loop final
publish never happens (`publishFinal` is absent from the trace), so the
last result list published during scanning remains the session's final
output. -/
theorem cancellation_semantics (cfg : MatchConfig) (sched : ℕ → ℕ → List ℕ)
    (photos : List Cand) (t : ℕ)
    (h : Ev.abortSeen ∈ (runMatching cfg sched photos t).1.evs) :
    (runMatching cfg sched photos t).2 = SessState.cancelled ∧
    (runMatching cfg sched photos t).2 ≠ SessState.failed ∧
    noStartAfterAbort (runMatching cfg sched photos t).1.evs = true ∧
    ∀ m, Ev.publishFinal m ∉ (runMatching cfg sched photos t).1.evs := by
  by_cases hph : photos.isEmpty
  · simp [runMatching, hph] at h
  · set L := min cfg.scanMax photos.length with hL
    set pool := (photos.take cfg.scanMax).enum with hpool
    set s₀ : MatchSt :=
      { scored := [], t := t, k := 0, evs := [.publish [], .progress 0 L] } with hs0
    have hminv₀ : MInv s₀ := by
      refine ⟨?_, ?_, ?_⟩
      · intro hmem
        simp [hs0] at hmem
      · rfl
      · intro m hm
        simp [hs0] at hm
    set s₁ := runBatches cfg sched L pool.length pool 0 s₀ with hs1
    have hminv₁ : MInv s₁ := runBatches_minv cfg sched L _ _ 0 s₀ hminv₀
    have hrun : runMatching cfg sched photos t =
        (if (doCheck s₁).1 then ((doCheck s₁).2, SessState.cancelled)
         else ({ (doCheck s₁).2 with
                  scored := sortByScore (doCheck s₁).2.scored,
                  evs := (doCheck s₁).2.evs ++
                    [Ev.publishFinal (((sortByScore (doCheck s₁).2.scored).filter
                        fun e => cfg.threshold ≤ e.score).take 8)] },
                SessState.completed)) := by
      simp only [runMatching, hph, Bool.false_eq_true, if_false]
    by_cases hab : (doCheck s₁).1
    · rw [hrun, if_pos hab] at h ⊢
      have hmv := doCheck_minv (s := s₁) hminv₁
      exact ⟨rfl, by simp, hmv.2.1, hmv.2.2⟩
    · rw [hrun, if_neg hab] at h
      obtain ⟨hevs, ht0⟩ := doCheck_evs_of_false (s := s₁) (by simpa using hab)
      rcases List.mem_append.mp h with hm | hm
      · rw [hevs] at hm
        exact absurd (hminv₁.1 hm) ht0
      · simp at hm

/-- Closed witness for `cancellation_semantics`: a two-candidate pool with
the abort flag set from the start. -/
theorem cancellation_semantics_witness :
    Ev.abortSeen ∈
      (runMatching (sourceConfig 2) (fun _ n => List.range n) [some [2], none] 0).1.evs ∧
    ((runMatching (sourceConfig 2) (fun _ n => List.range n) [some [2], none] 0).2
        = SessState.cancelled ∧
      (runMatching (sourceConfig 2) (fun _ n => List.range n) [some [2], none] 0).2
        ≠ SessState.failed ∧
      noStartAfterAbort
        (runMatching (sourceConfig 2) (fun _ n => List.range n) [some [2], none] 0).1.evs
        = true ∧
      ∀ m, Ev.publishFinal m ∉
        (runMatching (sourceConfig 2) (fun _ n => List.range n) [some [2], none] 0).1.evs) :=
  ⟨by decide, cancellation_semantics _ _ _ _ (by decide)⟩

/-! ### Provenance of scored entries (C2, C10)

Every entry that ever reaches `scoredAll` — and hence any published list —
was produced by `scoreOne` from a candidate of the pool that had at least
one detected face, carries that candidate's best face similarity as its
score, and passed the merge step's `score >= 0` admission filter.
Candidates whose resolution failed (`none`), had no faces (`some []`), or
whose best similarity is negative therefore never appear anywhere. -/

lemma progressEvents_append (a b : List Ev) :
    progressEvents (a ++ b) = progressEvents a ++ progressEvents b := by
  simp [progressEvents, List.filterMap_append]

lemma publishedLists_append (a b : List Ev) :
    publishedLists (a ++ b) = publishedLists a ++ publishedLists b := by
  simp [publishedLists, List.filterMap_append]

lemma scoreOne_evs (c : ℕ × Cand) (s : MatchSt) :
    (scoreOne c s).2.evs = s.evs ∨ (scoreOne c s).2.evs = s.evs ++ [Ev.abortSeen] := by
  by_cases ht : s.t = 0
  · by_cases hc : (doCheck s).1
    · simp only [scoreOne, hc, if_true]
      right
      simp [doCheck, ht]
    · simp [doCheck, ht] at hc
  · have hc : (doCheck s).1 = false := by simp [doCheck, ht]
    simp only [scoreOne, hc, Bool.false_eq_true, if_false]
    match c.2 with
    | none =>
      left
      simp [doCheck, ht]
    | some sims =>
      by_cases he : sims.isEmpty <;> simp [he, doCheck, ht]

lemma scoreChunk_evs (chunk : List (ℕ × Cand)) (s : MatchSt) :
    ∃ u, (scoreChunk chunk s).2.evs = s.evs ++ u ∧ progressEvents u = [] ∧ publishedLists u = [] := by
  induction chunk generalizing s with
  | nil => exact ⟨[], by simp [scoreChunk], rfl, rfl⟩
  | cons c cs ih =>
    obtain ⟨u, hu, hp, hq⟩ := ih (scoreOne c s).2
    rcases scoreOne_evs c s with h1 | h1
    · exact ⟨u, by simp [scoreChunk, hu, h1], hp, hq⟩
    · refine ⟨Ev.abortSeen :: u, ?_, ?_, ?_⟩
      · simp [scoreChunk, hu, h1]
      · show progressEvents u = []
        exact hp
      · show publishedLists u = []
        exact hq

/-- A key/value list built by tagging each index maps `lookup` back to the
tag function. -/
lemma lookup_mem {β : Type} (ps : List (ℕ × β)) (a : ℕ) (b : β)
    (h : ps.lookup a = some b) : (a, b) ∈ ps := by
  induction ps with
  | nil => simp [List.lookup] at h
  | cons p ps ih =>
    rw [List.lookup] at h
    by_cases hb : a == p.1
    · simp only [hb] at h
      have ha : a = p.1 := by simpa using hb
      have hb2 : b = p.2 := (Option.some.inj h).symm
      rw [ha, hb2, Prod.mk.eta]
      exact List.mem_cons_self _ _
    · have hbf : (a == p.1) = false := by simpa using hb
      simp only [hbf] at h
      exact List.mem_cons_of_mem _ (ih h)

/-- Whatever completion order `Promise.all`'s workers finish in, every slot
of the resolved array is either one of the workers' results or `none`. -/
lemma promiseAll_mem (vs : List (Option Scored)) (ord : List ℕ) :
    ∀ r ∈ promiseAll vs ord, r ∈ vs ∨ r = none := by
  intro r hr
  simp only [promiseAll, List.mem_map] at hr
  obtain ⟨i, _, hval⟩ := hr
  cases hl : (List.map (fun i => (i, vs.getD i none)) ord).lookup i with
  | none =>
    right
    rw [hl] at hval
    simpa using hval.symm
  | some v =>
    rw [hl] at hval
    simp only [Option.getD_some] at hval
    have hmem := lookup_mem _ _ _ hl
    simp only [List.mem_map] at hmem
    obtain ⟨j, _, hj⟩ := hmem
    have hv : v = vs.getD j none := by
      have := congrArg Prod.snd hj
      simpa using this.symm
    subst hval
    rw [hv]
    by_cases hjl : j < vs.length
    · left
      rw [List.getD_eq_getElem vs none hjl]
      exact List.getElem_mem hjl
    · right
      rw [List.getD_eq_getElem?_getD, List.getElem?_eq_none (not_lt.mp hjl)]
      rfl

lemma mergeResults_mem (scored : List Scored) (rs : List (Option Scored)) :
    ∀ e ∈ mergeResults scored rs, e ∈ scored ∨ (some e ∈ rs ∧ 0 ≤ e.score) := by
  intro e he
  rcases List.mem_append.mp he with h | h
  · exact Or.inl h
  · right
    simp only [List.mem_filterMap] at h
    obtain ⟨r, hr, heq⟩ := h
    cases r with
    | none => exact Option.noConfusion heq
    | some x =>
      have heq' : (if 0 ≤ x.score then some x else none) = some e := heq
      by_cases hx : 0 ≤ x.score
      · rw [if_pos hx] at heq'
        cases heq'
        exact ⟨hr, hx⟩
      · rw [if_neg hx] at heq'
        exact Option.noConfusion heq'

/-- Every result of `chunk.map(scoreOne)` is `null` or the best-face score
of one of the chunk's candidates (with at least one detected face). -/
lemma scoreChunk_results (chunk : List (ℕ × Cand)) (s : MatchSt) :
    ∀ r ∈ (scoreChunk chunk s).1, r = none ∨
      ∃ c ∈ chunk, ∃ sims, c.2 = some sims ∧ sims ≠ [] ∧ r = some ⟨c.1, bestOf sims⟩ := by
  induction chunk generalizing s with
  | nil => simp [scoreChunk]
  | cons c cs ih =>
    intro r hr
    simp only [scoreChunk, List.mem_cons] at hr
    rcases hr with rfl | hr
    · by_cases hc : (doCheck s).1
      · simp [scoreOne, hc]
      · simp only [scoreOne, hc, Bool.false_eq_true, if_false]
        cases hcc : c.2 with
        | none => simp [hcc]
        | some sims =>
          simp only [hcc]
          by_cases he : sims.isEmpty
          · simp [he]
          · simp only [he, Bool.false_eq_true, if_false]
            right
            exact ⟨c, List.mem_cons_self c cs, sims, hcc, by simpa using he, rfl⟩
    · rcases ih _ r hr with h | ⟨c', hc', hrest⟩
      · exact Or.inl h
      · exact Or.inr ⟨c', List.mem_cons_of_mem _ hc', hrest⟩

/-- The candidate at enumeration index `c.1` of the pool really is `c.2`. -/
def PoolAt (photos : List Cand) (M : ℕ) (c : ℕ × Cand) : Prop :=
  (photos.take M).get? c.1 = some c.2

/-- What it means for a scored entry to be honestly produced: a non-negative
score that is the best face similarity of the pool candidate at its index,
and that candidate had at least one detected face. -/
def GoodEntry (photos : List Cand) (M : ℕ) (e : Scored) : Prop :=
  0 ≤ e.score ∧ ∃ sims, (photos.take M).get? e.idx = some (some sims) ∧
    sims ≠ [] ∧ e.score = bestOf sims

/-- Invariant: every entry of `scoredAll` and of every published list is
honestly produced. -/
def ScInv (photos : List Cand) (M : ℕ) (s : MatchSt) : Prop :=
  (∀ e ∈ s.scored, GoodEntry photos M e) ∧
  ∀ m ∈ publishedLists s.evs, ∀ e ∈ m, GoodEntry photos M e

lemma doCheck_scinv {photos : List Cand} {M : ℕ} {s : MatchSt}
    (h : ScInv photos M s) : ScInv photos M (doCheck s).2 := by
  by_cases ht : s.t = 0
  · have heq : (doCheck s).2 = { s with evs := s.evs ++ [Ev.abortSeen] } := by
      simp [doCheck, ht]
    rw [heq]
    refine ⟨h.1, ?_⟩
    intro m hm
    rw [show ({ s with evs := s.evs ++ [Ev.abortSeen] } : MatchSt).evs
        = s.evs ++ [Ev.abortSeen] from rfl, publishedLists_append] at hm
    rcases List.mem_append.mp hm with hm' | hm'
    · exact h.2 m hm'
    · simp [publishedLists] at hm'
  · have heq : (doCheck s).2 = { s with t := s.t - 1 } := by
      simp [doCheck, ht]
    rw [heq]
    exact h

lemma scoreOne_scinv (c : ℕ × Cand) {photos : List Cand} {M : ℕ} {s : MatchSt}
    (h : ScInv photos M s) : ScInv photos M (scoreOne c s).2 := by
  have hd := @doCheck_scinv photos M s h
  by_cases hc : (doCheck s).1
  · simp only [scoreOne, hc, if_true]
    exact hd
  · simp only [scoreOne, hc, Bool.false_eq_true, if_false]
    cases c.2 with
    | none => exact hd
    | some sims =>
      by_cases he : sims.isEmpty
      · simp only [he, if_true]
        exact hd
      · simp only [he, Bool.false_eq_true, if_false]
        exact hd

lemma scoreChunk_scinv (chunk : List (ℕ × Cand)) {photos : List Cand} {M : ℕ} {s : MatchSt}
    (h : ScInv photos M s) : ScInv photos M (scoreChunk chunk s).2 := by
  induction chunk generalizing s with
  | nil => exact h
  | cons c cs ih => exact ih (scoreOne_scinv c h)

lemma publishTop_subset {θ : ℚ} {l : List Scored} {e : Scored}
    (he : e ∈ publishTop θ l) : e ∈ l := by
  have := mem_sortByScore.mp (List.mem_of_mem_take he)
  exact (List.mem_filter.mp this).1

lemma runChunks_scinv (cfg : MatchConfig) (sched : ℕ → ℕ → List ℕ) (L start : ℕ)
    {photos : List Cand} {M : ℕ} :
    ∀ (fuel : ℕ) (rem : List (ℕ × Cand)) (i : ℕ) (s : MatchSt),
      (∀ c ∈ rem, PoolAt photos M c) → ScInv photos M s →
      ScInv photos M (runChunks cfg sched L start fuel rem i s) := by
  intro fuel
  induction fuel with
  | zero =>
    intro rem i s _ h
    cases rem with
    | nil => exact h
    | cons c rest => exact h
  | succ fuel ih =>
    intro rem i s hrem h
    cases rem with
    | nil => exact h
    | cons c rest =>
      simp only [runChunks]
      by_cases hc : (doCheck s).1
      · simp only [hc, if_true]
        exact doCheck_scinv h
      · simp only [hc, Bool.false_eq_true, if_false]
        apply ih
        · intro c' hc'
          exact hrem c' (List.mem_cons_of_mem _ (List.mem_of_mem_drop hc'))
        · -- the progress append and the merge step
          have hsc := scoreChunk_scinv (c :: rest.take (cfg.concurrency - 1))
            (doCheck_scinv h)
          set chunk := c :: rest.take (cfg.concurrency - 1) with hchunk
          set sc := scoreChunk chunk (doCheck s).2 with hscdef
          refine ⟨?_, ?_⟩
          · intro e he
            rcases mergeResults_mem _ _ e he with h' | ⟨hsome, hnonneg⟩
            · exact hsc.1 e h'
            · rcases promiseAll_mem _ _ _ hsome with hin | habs
              · rcases scoreChunk_results chunk _ _ hin with habs | ⟨c', hc', sims, hcs, hsne, hsome'⟩
                · exact Option.noConfusion habs
                · have hcpool : PoolAt photos M c' := by
                    apply hrem
                    rcases List.mem_cons.mp hc' with rfl | hc''
                    · exact List.mem_cons_self _ _
                    · exact List.mem_cons_of_mem _ (List.mem_of_mem_take hc'')
                  have he' : e = ⟨c'.1, bestOf sims⟩ := Option.some.inj hsome'
                  subst he'
                  refine ⟨hnonneg, sims, ?_, hsne, rfl⟩
                  have : (photos.take M).get? c'.1 = some c'.2 := hcpool
                  rw [this, hcs]
              · exact Option.noConfusion habs
          · intro m hm
            rw [show ∀ s' : MatchSt, ({ s' with evs := s'.evs ++ [Ev.progress (min L (start + (i + cfg.concurrency))) L] } : MatchSt).evs = s'.evs ++ [Ev.progress (min L (start + (i + cfg.concurrency))) L] from fun _ => rfl,
              publishedLists_append] at hm
            rcases List.mem_append.mp hm with hm' | hm'
            · exact hsc.2 m hm'
            · simp [publishedLists] at hm'

lemma runBatches_scinv (cfg : MatchConfig) (sched : ℕ → ℕ → List ℕ) (L : ℕ)
    {photos : List Cand} {M : ℕ} :
    ∀ (fuel : ℕ) (rem : List (ℕ × Cand)) (start : ℕ) (s : MatchSt),
      (∀ c ∈ rem, PoolAt photos M c) → ScInv photos M s →
      ScInv photos M (runBatches cfg sched L fuel rem start s) := by
  intro fuel
  induction fuel with
  | zero =>
    intro rem start s _ h
    cases rem with
    | nil => exact h
    | cons c rest => exact h
  | succ fuel ih =>
    intro rem start s hrem h
    cases rem with
    | nil => exact h
    | cons c rest =>
      simp only [runBatches]
      by_cases hc : (doCheck s).1
      · simp only [hc, if_true]
        exact doCheck_scinv h
      · simp only [hc, Bool.false_eq_true, if_false]
        apply ih
        · intro c' hc'
          exact hrem c' (List.mem_cons_of_mem _ (List.mem_of_mem_drop hc'))
        · -- one batch body
          have hd := @doCheck_scinv photos M s h
          have hs2 : ScInv photos M
              { (doCheck s).2 with evs := (doCheck s).2.evs ++ [Ev.batchStart start] } := by
            refine ⟨hd.1, ?_⟩
            intro m hm
            rw [show ({ (doCheck s).2 with evs := (doCheck s).2.evs ++ [Ev.batchStart start] } : MatchSt).evs = (doCheck s).2.evs ++ [Ev.batchStart start] from rfl,
              publishedLists_append] at hm
            rcases List.mem_append.mp hm with hm' | hm'
            · exact hd.2 m hm'
            · simp [publishedLists] at hm'
          have hbatch : ∀ c' ∈ c :: rest.take (cfg.scanBatchSize - 1), PoolAt photos M c' := by
            intro c' hc'
            rcases List.mem_cons.mp hc' with rfl | hc''
            · exact hrem c' (List.mem_cons_self _ _)
            · exact hrem c' (List.mem_cons_of_mem _ (List.mem_of_mem_take hc''))
          have hs3 := runChunks_scinv cfg sched L start
            (c :: rest.take (cfg.scanBatchSize - 1)).length
            (c :: rest.take (cfg.scanBatchSize - 1)) 0
            { (doCheck s).2 with evs := (doCheck s).2.evs ++ [Ev.batchStart start] }
            hbatch hs2
          set s₃ := runChunks cfg sched L start
            (c :: rest.take (cfg.scanBatchSize - 1)).length
            (c :: rest.take (cfg.scanBatchSize - 1)) 0
            { (doCheck s).2 with evs := (doCheck s).2.evs ++ [Ev.batchStart start] } with hs3def
          have hkeep : ∀ e ∈ (sortByScore s₃.scored).take cfg.topKeep, GoodEntry photos M e := by
            intro e he
            exact hs3.1 e (mem_sortByScore.mp (List.mem_of_mem_take he))
          refine ⟨hkeep, ?_⟩
          intro m hm
          rw [show ∀ s' : MatchSt, ∀ l, ({ s' with evs := s'.evs ++ [Ev.publish l] } : MatchSt).evs = s'.evs ++ [Ev.publish l] from fun _ _ => rfl,
            publishedLists_append] at hm
          rcases List.mem_append.mp hm with hm' | hm'
          · exact hs3.2 m hm'
          · have hm'' : m = publishTop cfg.threshold
                ((sortByScore s₃.scored).take cfg.topKeep) := by
              simpa [publishedLists] using hm'
            intro e he
            rw [hm''] at he
            exact hkeep e (publishTop_subset he)

lemma runMatching_unfold (cfg : MatchConfig) (sched : ℕ → ℕ → List ℕ)
    (photos : List Cand) (t : ℕ) (hph : ¬photos.isEmpty = true) :
    runMatching cfg sched photos t =
      (if (doCheck (runBatches cfg sched (min cfg.scanMax photos.length)
            ((photos.take cfg.scanMax).enum).length ((photos.take cfg.scanMax).enum) 0
            { scored := [], t := t, k := 0,
              evs := [Ev.publish [], Ev.progress 0 (min cfg.scanMax photos.length)] })).1
       then ((doCheck (runBatches cfg sched (min cfg.scanMax photos.length)
            ((photos.take cfg.scanMax).enum).length ((photos.take cfg.scanMax).enum) 0
            { scored := [], t := t, k := 0,
              evs := [Ev.publish [], Ev.progress 0 (min cfg.scanMax photos.length)] })).2,
            SessState.cancelled)
       else
        (let s₂ := (doCheck (runBatches cfg sched (min cfg.scanMax photos.length)
            ((photos.take cfg.scanMax).enum).length ((photos.take cfg.scanMax).enum) 0
            { scored := [], t := t, k := 0,
              evs := [Ev.publish [], Ev.progress 0 (min cfg.scanMax photos.length)] })).2
         ({ s₂ with
            scored := sortByScore s₂.scored,
            evs := s₂.evs ++ [Ev.publishFinal ((((sortByScore s₂.scored)).filter
                fun e => cfg.threshold ≤ e.score).take 8)] },
          SessState.completed))) := by
  simp only [runMatching, hph, Bool.false_eq_true, if_false]

/-- All scored and published entries of any run are honestly produced. -/
lemma runMatching_goodEntries (cfg : MatchConfig) (sched : ℕ → ℕ → List ℕ)
    (photos : List Cand) (t : ℕ) :
    (∀ e ∈ (runMatching cfg sched photos t).1.scored, GoodEntry photos cfg.scanMax e) ∧
    ∀ m ∈ publishedLists (runMatching cfg sched photos t).1.evs, ∀ e ∈ m,
      GoodEntry photos cfg.scanMax e := by
  by_cases hph : photos.isEmpty
  · constructor
    · intro e he
      simp [runMatching, hph] at he
    · intro m hm
      simp [runMatching, hph, publishedLists] at hm
  · set L := min cfg.scanMax photos.length with hL
    set pool := (photos.take cfg.scanMax).enum with hpool
    set s₀ : MatchSt :=
      { scored := [], t := t, k := 0, evs := [.publish [], .progress 0 L] } with hs0
    have hpoolAt : ∀ c ∈ pool, PoolAt photos cfg.scanMax c := by
      intro c hc
      have hc' : (c.1, c.2) ∈ (photos.take cfg.scanMax).enum := by
        rw [Prod.mk.eta]
        exact hc
      exact List.mk_mem_enum_iff_get?.mp hc'
    have hscinv0 : ScInv photos cfg.scanMax s₀ := by
      constructor
      · intro e he
        simp [hs0] at he
      · intro m hm
        have hem : m = [] := by simpa [hs0, publishedLists] using hm
        intro e he
        rw [hem] at he
        simp at he
    set s₁ := runBatches cfg sched L pool.length pool 0 s₀ with hs1
    have hscinv₁ : ScInv photos cfg.scanMax s₁ :=
      runBatches_scinv cfg sched L pool.length pool 0 s₀ hpoolAt hscinv0
    have hd := @doCheck_scinv photos cfg.scanMax s₁ hscinv₁
    rw [runMatching_unfold cfg sched photos t hph]
    by_cases hab : (doCheck s₁).1
    · rw [if_pos hab]
      exact hd
    · rw [if_neg hab]
      constructor
      · intro e he
        exact hd.1 e (mem_sortByScore.mp he)
      · intro m hm
        rw [show ∀ s' : MatchSt, ∀ ev : Ev, ({ s' with scored := sortByScore s'.scored, evs := s'.evs ++ [ev] } : MatchSt).evs = s'.evs ++ [ev] from fun _ _ => rfl,
          publishedLists_append] at hm
        rcases List.mem_append.mp hm with hm' | hm'
        · exact hd.2 m hm'
        · have hm'' : m = ((sortByScore (doCheck s₁).2.scored).filter
              fun e => cfg.threshold ≤ e.score).take 8 := List.mem_singleton.mp hm'
          intro e he
          rw [hm''] at he
          exact hd.1 e (mem_sortByScore.mp (List.mem_filter.mp (List.mem_of_mem_take he)).1)

/-- **C10.**  In the face-api matching path, a candidate whose detections
all score negatively against the query — so its best face similarity
`bestOf sims` is negative — is excluded from the running best-of list and
from every published result list: the merge step admits only results with
`score >= 0`. -/
theorem negativeScore_candidates_excluded (cfg : MatchConfig) (sched : ℕ → ℕ → List ℕ)
    (photos : List Cand) (t : ℕ) (i : ℕ) (sims : List ℚ)
    (hc : (photos.take cfg.scanMax).get? i = some (some sims))
    (hne : sims ≠ [])
    (hneg : bestOf sims < 0) :
    (∀ e ∈ (runMatching cfg sched photos t).1.scored, e.idx ≠ i) ∧
    (∀ m ∈ publishedLists (runMatching cfg sched photos t).1.evs, ∀ e ∈ m, e.idx ≠ i) := by
  have hg := runMatching_goodEntries cfg sched photos t
  have hkey : ∀ e : Scored, GoodEntry photos cfg.scanMax e → e.idx ≠ i := by
    intro e ⟨hnn, sims', hc', _, hsc⟩ heq
    rw [heq, hc] at hc'
    have hss : sims = sims' := Option.some.inj (Option.some.inj hc')
    rw [hsc, ← hss] at hnn
    exact absurd hneg (not_lt.mpr hnn)
  constructor
  · intro e he
    exact hkey e (hg.1 e he)
  · intro m hm e he
    exact hkey e (hg.2 m hm e he)

/-- Closed witness for `negativeScore_candidates_excluded`: a pool whose
only candidate has one face scoring `-2`. -/
theorem negativeScore_candidates_excluded_witness :
    ((([some [-2]] : List Cand).take (sourceConfig 2).scanMax).get? 0 = some (some [-2]) ∧
      ([-2] : List ℚ) ≠ [] ∧ bestOf [-2] < 0) ∧
    ((∀ e ∈ (runMatching (sourceConfig 2) (fun _ n => List.range n) [some [-2]] 100).1.scored,
        e.idx ≠ 0) ∧
      (∀ m ∈ publishedLists
          (runMatching (sourceConfig 2) (fun _ n => List.range n) [some [-2]] 100).1.evs,
        ∀ e ∈ m, e.idx ≠ 0)) :=
  ⟨⟨by decide, by decide, by decide⟩,
    negativeScore_candidates_excluded (sourceConfig 2) (fun _ n => List.range n)
      [some [-2]] 100 0 [-2] (by decide) (by decide) (by decide)⟩

/-! ### No-abort runs: completion and full progress (C2) -/

lemma runChunks_nil (cfg : MatchConfig) (sched : ℕ → ℕ → List ℕ) (L start : ℕ)
    (fuel i : ℕ) (s : MatchSt) :
    runChunks cfg sched L start fuel [] i s = s := by
  cases fuel <;> rfl

lemma runBatches_nil (cfg : MatchConfig) (sched : ℕ → ℕ → List ℕ) (L : ℕ)
    (fuel start : ℕ) (s : MatchSt) :
    runBatches cfg sched L fuel [] start s = s := by
  cases fuel <;> rfl

lemma runChunks_evs_grow (cfg : MatchConfig) (sched : ℕ → ℕ → List ℕ) (L start : ℕ) :
    ∀ (fuel : ℕ) (rem : List (ℕ × Cand)) (i : ℕ) (s : MatchSt),
      ∃ u, (runChunks cfg sched L start fuel rem i s).evs = s.evs ++ u := by
  intro fuel
  induction fuel with
  | zero =>
    intro rem i s
    cases rem with
    | nil => exact ⟨[], by simp [runChunks_nil]⟩
    | cons c rest => exact ⟨[], by simp [runChunks]⟩
  | succ fuel ih =>
    intro rem i s
    cases rem with
    | nil => exact ⟨[], by simp [runChunks_nil]⟩
    | cons c rest =>
      simp only [runChunks]
      by_cases hc : (doCheck s).1
      · simp only [hc, if_true]
        by_cases ht : s.t = 0
        · exact ⟨[Ev.abortSeen], by simp [doCheck, ht]⟩
        · simp [doCheck, ht] at hc
      · simp only [hc, Bool.false_eq_true, if_false]
        obtain ⟨u₁, hu₁, _, _⟩ := scoreChunk_evs (c :: rest.take (cfg.concurrency - 1)) (doCheck s).2
        obtain ⟨u₂, hu₂⟩ := ih (rest.drop (cfg.concurrency - 1)) (i + cfg.concurrency) _
        obtain ⟨hevs, _⟩ := doCheck_evs_of_false (s := s) (by simpa using hc)
        refine ⟨u₁ ++ [Ev.progress (min L (start + (i + cfg.concurrency))) L] ++ u₂, ?_⟩
        rw [hu₂]
        show (scoreChunk (c :: rest.take (cfg.concurrency - 1)) (doCheck s).2).2.evs ++
          [Ev.progress (min L (start + (i + cfg.concurrency))) L] ++ u₂ = _
        rw [hu₁, hevs]
        simp

lemma runBatches_evs_grow (cfg : MatchConfig) (sched : ℕ → ℕ → List ℕ) (L : ℕ) :
    ∀ (fuel : ℕ) (rem : List (ℕ × Cand)) (start : ℕ) (s : MatchSt),
      ∃ u, (runBatches cfg sched L fuel rem start s).evs = s.evs ++ u := by
  intro fuel
  induction fuel with
  | zero =>
    intro rem start s
    cases rem with
    | nil => exact ⟨[], by simp [runBatches_nil]⟩
    | cons c rest => exact ⟨[], by simp [runBatches]⟩
  | succ fuel ih =>
    intro rem start s
    cases rem with
    | nil => exact ⟨[], by simp [runBatches_nil]⟩
    | cons c rest =>
      simp only [runBatches]
      by_cases hc : (doCheck s).1
      · simp only [hc, if_true]
        by_cases ht : s.t = 0
        · exact ⟨[Ev.abortSeen], by simp [doCheck, ht]⟩
        · simp [doCheck, ht] at hc
      · simp only [hc, Bool.false_eq_true, if_false]
        obtain ⟨u₁, hu₁⟩ := runChunks_evs_grow cfg sched L start
          (c :: rest.take (cfg.scanBatchSize - 1)).length
          (c :: rest.take (cfg.scanBatchSize - 1)) 0
          { (doCheck s).2 with evs := (doCheck s).2.evs ++ [Ev.batchStart start] }
        obtain ⟨u₂, hu₂⟩ := ih (rest.drop (cfg.scanBatchSize - 1)) (start + cfg.scanBatchSize) _
        obtain ⟨hevs, _⟩ := doCheck_evs_of_false (s := s) (by simpa using hc)
        refine ⟨[Ev.batchStart start] ++ u₁ ++
          [Ev.publish (publishTop cfg.threshold
            ((sortByScore (runChunks cfg sched L start
              (c :: rest.take (cfg.scanBatchSize - 1)).length
              (c :: rest.take (cfg.scanBatchSize - 1)) 0
              { (doCheck s).2 with evs := (doCheck s).2.evs ++ [Ev.batchStart start] }).scored).take cfg.topKeep))] ++ u₂, ?_⟩
        rw [hu₂]
        show (runChunks cfg sched L start
              (c :: rest.take (cfg.scanBatchSize - 1)).length
              (c :: rest.take (cfg.scanBatchSize - 1)) 0
              { (doCheck s).2 with evs := (doCheck s).2.evs ++ [Ev.batchStart start] }).evs ++ _ ++ u₂ = _
        rw [hu₁]
        show ((doCheck s).2.evs ++ [Ev.batchStart start]) ++ u₁ ++ _ ++ u₂ = _
        rw [hevs]
        simp

/-- In a non-aborted run of the chunk loop over a non-empty remainder, the
last progress update published has `done = min L (start + i')` for some
`i'` covering the whole remainder. -/
lemma runChunks_progress_last (cfg : MatchConfig) (sched : ℕ → ℕ → List ℕ)
    (L start : ℕ) (hC : 1 ≤ cfg.concurrency) :
    ∀ (fuel : ℕ) (rem : List (ℕ × Cand)) (i : ℕ) (s : MatchSt),
      rem.length ≤ fuel → rem ≠ [] →
      Ev.abortSeen ∉ (runChunks cfg sched L start fuel rem i s).evs →
      ∃ i', i + rem.length ≤ i' ∧
        (progressEvents (runChunks cfg sched L start fuel rem i s).evs).getLast?
          = some (min L (start + i'), L) := by
  intro fuel
  induction fuel with
  | zero =>
    intro rem i s hlen hne _
    cases rem with
    | nil => exact absurd rfl hne
    | cons c rest => simp at hlen
  | succ fuel ih =>
    intro rem i s hlen hne hno
    cases rem with
    | nil => exact absurd rfl hne
    | cons c rest =>
      rw [runChunks] at hno ⊢
      by_cases hc : (doCheck s).1
      · exfalso
        by_cases ht : s.t = 0
        · simp only [hc, if_true] at hno
          apply hno
          have : (doCheck s).2.evs = s.evs ++ [Ev.abortSeen] := by simp [doCheck, ht]
          rw [this]
          simp
        · simp [doCheck, ht] at hc
      · simp only [hc, Bool.false_eq_true, if_false] at hno ⊢
        obtain ⟨hevs, _⟩ := doCheck_evs_of_false (s := s) (by simpa using hc)
        by_cases hrem' : rest.drop (cfg.concurrency - 1) = []
        · refine ⟨i + cfg.concurrency, ?_, ?_⟩
          · have hrest : rest.length ≤ cfg.concurrency - 1 := List.drop_eq_nil_iff.mp hrem'
            simp only [List.length_cons]
            omega
          · rw [hrem', runChunks_nil]
            obtain ⟨u, hu, hpu, _⟩ := scoreChunk_evs (c :: rest.take (cfg.concurrency - 1)) (doCheck s).2
            show (progressEvents ((scoreChunk (c :: rest.take (cfg.concurrency - 1)) (doCheck s).2).2.evs ++ [Ev.progress (min L (start + (i + cfg.concurrency))) L])).getLast? = _
            rw [progressEvents_append, hu, progressEvents_append, hpu]
            simp [progressEvents, List.getLast?_concat]
        · obtain ⟨i'', hge, hlast⟩ := ih (rest.drop (cfg.concurrency - 1)) (i + cfg.concurrency) _
            (by
              have := List.length_drop (cfg.concurrency - 1) rest
              simp only [List.length_cons] at hlen
              omega)
            hrem' hno
          refine ⟨i'', ?_, hlast⟩
          have hrest : cfg.concurrency - 1 < rest.length := by
            by_contra hcon
            exact hrem' (List.drop_eq_nil_iff.mpr (not_lt.mp hcon))
          have := List.length_drop (cfg.concurrency - 1) rest
          simp only [List.length_cons]
          omega

/-- In a non-aborted run of the batch loop over a non-empty remainder, the
last progress update covers the whole remainder. -/
lemma runBatches_progress_last (cfg : MatchConfig) (sched : ℕ → ℕ → List ℕ)
    (L : ℕ) (hC : 1 ≤ cfg.concurrency) (hB : 1 ≤ cfg.scanBatchSize) :
    ∀ (fuel : ℕ) (rem : List (ℕ × Cand)) (start : ℕ) (s : MatchSt),
      rem.length ≤ fuel → rem ≠ [] →
      Ev.abortSeen ∉ (runBatches cfg sched L fuel rem start s).evs →
      ∃ d, start + rem.length ≤ d ∧
        (progressEvents (runBatches cfg sched L fuel rem start s).evs).getLast?
          = some (min L d, L) := by
  intro fuel
  induction fuel with
  | zero =>
    intro rem start s hlen hne _
    cases rem with
    | nil => exact absurd rfl hne
    | cons c rest => simp at hlen
  | succ fuel ih =>
    intro rem start s hlen hne hno
    cases rem with
    | nil => exact absurd rfl hne
    | cons c rest =>
      rw [runBatches] at hno ⊢
      by_cases hc : (doCheck s).1
      · exfalso
        by_cases ht : s.t = 0
        · simp only [hc, if_true] at hno
          apply hno
          have : (doCheck s).2.evs = s.evs ++ [Ev.abortSeen] := by simp [doCheck, ht]
          rw [this]
          simp
        · simp [doCheck, ht] at hc
      · simp only [hc, Bool.false_eq_true, if_false] at hno ⊢
        set batch := c :: rest.take (cfg.scanBatchSize - 1) with hbatch
        set s₂ : MatchSt :=
          { (doCheck s).2 with evs := (doCheck s).2.evs ++ [Ev.batchStart start] } with hs2
        set s₃ := runChunks cfg sched L start batch.length batch 0 s₂ with hs3
        set s₅ : MatchSt := { s₃ with
          scored := (sortByScore s₃.scored).take cfg.topKeep,
          evs := s₃.evs ++ [Ev.publish (publishTop cfg.threshold
            ((sortByScore s₃.scored).take cfg.topKeep))] } with hs5
        have hout : runBatches cfg sched L fuel (rest.drop (cfg.scanBatchSize - 1))
            (start + cfg.scanBatchSize) s₅
            = runBatches cfg sched L fuel (rest.drop (cfg.scanBatchSize - 1))
            (start + cfg.scanBatchSize) s₅ := rfl
        obtain ⟨u, hu⟩ := runBatches_evs_grow cfg sched L fuel
          (rest.drop (cfg.scanBatchSize - 1)) (start + cfg.scanBatchSize) s₅
        have hno₃ : Ev.abortSeen ∉ s₃.evs := by
          intro hmem
          apply hno
          rw [hu]
          have : Ev.abortSeen ∈ s₅.evs := by
            rw [hs5]
            show Ev.abortSeen ∈ s₃.evs ++ [Ev.publish _]
            exact List.mem_append_left _ hmem
          exact List.mem_append_left _ this
        have hblen : batch.length = 1 + min (cfg.scanBatchSize - 1) rest.length := by
          simp [hbatch]
          omega
        obtain ⟨i'', hge, hlast₃⟩ := runChunks_progress_last cfg sched L start hC
          batch.length batch 0 s₂ le_rfl (by simp [hbatch]) hno₃
        by_cases hrem' : rest.drop (cfg.scanBatchSize - 1) = []
        · rw [hrem', runBatches_nil]
          refine ⟨start + i'', ?_, ?_⟩
          · have hrest : rest.length ≤ cfg.scanBatchSize - 1 := List.drop_eq_nil_iff.mp hrem'
            have : batch.length = 1 + rest.length := by
              rw [hblen]
              omega
            simp only [List.length_cons]
            omega
          · rw [hs5]
            show (progressEvents (s₃.evs ++ [Ev.publish _])).getLast? = _
            rw [progressEvents_append]
            have : progressEvents [Ev.publish (publishTop cfg.threshold
                ((sortByScore s₃.scored).take cfg.topKeep))] = [] := rfl
            rw [this, List.append_nil]
            simpa using hlast₃
        · obtain ⟨d, hd, hlastout⟩ := ih (rest.drop (cfg.scanBatchSize - 1))
            (start + cfg.scanBatchSize) s₅
            (by
              have := List.length_drop (cfg.scanBatchSize - 1) rest
              simp only [List.length_cons] at hlen
              omega)
            hrem' hno
          refine ⟨d, ?_, hlastout⟩
          have hrest : cfg.scanBatchSize - 1 < rest.length := by
            by_contra hcon
            exact hrem' (List.drop_eq_nil_iff.mpr (not_lt.mp hcon))
          have := List.length_drop (cfg.scanBatchSize - 1) rest
          simp only [List.length_cons]
          omega

/-- "Nothing scored yet, and everything published is empty": the state of a
session under a total provider outage. -/
def AllNil (s : MatchSt) : Prop :=
  s.scored = [] ∧ ∀ m ∈ publishedLists s.evs, m = []

lemma doCheck_allNil {s : MatchSt} (h : AllNil s) : AllNil (doCheck s).2 := by
  by_cases ht : s.t = 0
  · have heq : (doCheck s).2 = { s with evs := s.evs ++ [Ev.abortSeen] } := by
      simp [doCheck, ht]
    rw [heq]
    refine ⟨h.1, ?_⟩
    intro m hm
    rw [show ({ s with evs := s.evs ++ [Ev.abortSeen] } : MatchSt).evs
        = s.evs ++ [Ev.abortSeen] from rfl, publishedLists_append] at hm
    rcases List.mem_append.mp hm with hm' | hm'
    · exact h.2 m hm'
    · simp [publishedLists] at hm'
  · have heq : (doCheck s).2 = { s with t := s.t - 1 } := by
      simp [doCheck, ht]
    rw [heq]
    exact h

lemma scoreChunk_allNil (chunk : List (ℕ × Cand)) {s : MatchSt} (h : AllNil s) :
    AllNil (scoreChunk chunk s).2 := by
  induction chunk generalizing s with
  | nil => exact h
  | cons c cs ih =>
    apply ih
    have hd := doCheck_allNil (s := s) h
    by_cases hc : (doCheck s).1
    · simp only [scoreOne, hc, if_true]
      exact hd
    · simp only [scoreOne, hc, Bool.false_eq_true, if_false]
      cases c.2 with
      | none => exact hd
      | some sims =>
        by_cases he : sims.isEmpty
        · simp only [he, if_true]
          exact hd
        · simp only [he, Bool.false_eq_true, if_false]
          exact hd

lemma runChunks_allNil (cfg : MatchConfig) (sched : ℕ → ℕ → List ℕ) (L start : ℕ) :
    ∀ (fuel : ℕ) (rem : List (ℕ × Cand)) (i : ℕ) (s : MatchSt),
      (∀ c ∈ rem, c.2 = none ∨ c.2 = some []) → AllNil s →
      AllNil (runChunks cfg sched L start fuel rem i s) := by
  intro fuel
  induction fuel with
  | zero =>
    intro rem i s _ h
    cases rem with
    | nil => exact h
    | cons c rest => exact h
  | succ fuel ih =>
    intro rem i s hrem h
    cases rem with
    | nil => exact h
    | cons c rest =>
      simp only [runChunks]
      by_cases hc : (doCheck s).1
      · simp only [hc, if_true]
        exact doCheck_allNil h
      · simp only [hc, Bool.false_eq_true, if_false]
        apply ih
        · intro c' hc'
          exact hrem c' (List.mem_cons_of_mem _ (List.mem_of_mem_drop hc'))
        · set chunk := c :: rest.take (cfg.concurrency - 1) with hchunk
          have hsc := scoreChunk_allNil chunk (doCheck_allNil (s := s) h)
          have hmerge : mergeResults (scoreChunk chunk (doCheck s).2).2.scored
              (promiseAll (scoreChunk chunk (doCheck s).2).1
                (sched (scoreChunk chunk (doCheck s).2).2.k chunk.length)) = [] := by
            rw [hsc.1]
            show List.filterMap _ _ = []
            rw [List.filterMap_eq_nil_iff]
            intro r hr
            rcases promiseAll_mem _ _ r hr with hin | rfl
            · rcases scoreChunk_results chunk _ r hin with rfl | ⟨c', hc', sims, hcs, hsne, rfl⟩
              · rfl
              · exfalso
                have : c'.2 = none ∨ c'.2 = some [] := by
                  apply hrem
                  rcases List.mem_cons.mp hc' with rfl | hc''
                  · exact List.mem_cons_self _ _
                  · exact List.mem_cons_of_mem _ (List.mem_of_mem_take hc'')
                rcases this with hn | hsome
                · rw [hn] at hcs
                  exact Option.noConfusion hcs
                · rw [hsome] at hcs
                  exact hsne (Option.some.inj hcs).symm
            · rfl
          refine ⟨hmerge, ?_⟩
          intro m hm
          have hm2 : m ∈ publishedLists ((scoreChunk chunk (doCheck s).2).2.evs
              ++ [Ev.progress (min L (start + (i + cfg.concurrency))) L]) := hm
          rw [publishedLists_append] at hm2
          rcases List.mem_append.mp hm2 with hm' | hm'
          · exact hsc.2 m hm'
          · simp [publishedLists] at hm'

lemma runBatches_allNil (cfg : MatchConfig) (sched : ℕ → ℕ → List ℕ) (L : ℕ) :
    ∀ (fuel : ℕ) (rem : List (ℕ × Cand)) (start : ℕ) (s : MatchSt),
      (∀ c ∈ rem, c.2 = none ∨ c.2 = some []) → AllNil s →
      AllNil (runBatches cfg sched L fuel rem start s) := by
  intro fuel
  induction fuel with
  | zero =>
    intro rem start s _ h
    cases rem with
    | nil => exact h
    | cons c rest => exact h
  | succ fuel ih =>
    intro rem start s hrem h
    cases rem with
    | nil => exact h
    | cons c rest =>
      simp only [runBatches]
      by_cases hc : (doCheck s).1
      · simp only [hc, if_true]
        exact doCheck_allNil h
      · simp only [hc, Bool.false_eq_true, if_false]
        apply ih
        · intro c' hc'
          exact hrem c' (List.mem_cons_of_mem _ (List.mem_of_mem_drop hc'))
        · have hd := doCheck_allNil (s := s) h
          have hs2 : AllNil { (doCheck s).2 with evs := (doCheck s).2.evs ++ [Ev.batchStart start] } := by
            refine ⟨hd.1, ?_⟩
            intro m hm
            rw [show ({ (doCheck s).2 with evs := (doCheck s).2.evs ++ [Ev.batchStart start] } : MatchSt).evs = (doCheck s).2.evs ++ [Ev.batchStart start] from rfl,
              publishedLists_append] at hm
            rcases List.mem_append.mp hm with hm' | hm'
            · exact hd.2 m hm'
            · simp [publishedLists] at hm'
          have hbatch : ∀ c' ∈ c :: rest.take (cfg.scanBatchSize - 1),
              c'.2 = none ∨ c'.2 = some [] := by
            intro c' hc'
            rcases List.mem_cons.mp hc' with rfl | hc''
            · exact hrem c' (List.mem_cons_self _ _)
            · exact hrem c' (List.mem_cons_of_mem _ (List.mem_of_mem_take hc''))
          have hs3 := runChunks_allNil cfg sched L start
            (c :: rest.take (cfg.scanBatchSize - 1)).length
            (c :: rest.take (cfg.scanBatchSize - 1)) 0
            { (doCheck s).2 with evs := (doCheck s).2.evs ++ [Ev.batchStart start] }
            hbatch hs2
          set s₃ := runChunks cfg sched L start
            (c :: rest.take (cfg.scanBatchSize - 1)).length
            (c :: rest.take (cfg.scanBatchSize - 1)) 0
            { (doCheck s).2 with evs := (doCheck s).2.evs ++ [Ev.batchStart start] } with hs3def
          have hscored : (sortByScore s₃.scored).take cfg.topKeep = [] := by
            rw [hs3.1]
            simp [sortByScore]
          have htop : publishTop cfg.threshold ((sortByScore s₃.scored).take cfg.topKeep) = [] := by
            rw [hscored]
            rfl
          refine ⟨hscored, ?_⟩
          intro m hm
          have hm2 : m ∈ publishedLists (s₃.evs ++ [Ev.publish (publishTop cfg.threshold
              ((sortByScore s₃.scored).take cfg.topKeep))]) := hm
          rw [publishedLists_append] at hm2
          rcases List.mem_append.mp hm2 with hm' | hm'
          · exact hs3.2 m hm'
          · have := List.mem_singleton.mp hm'
            rw [this, htop]

/-- **C2.**  (a) A candidate whose descriptor resolution failed (`none`) or
which had no detectable face (`some []`) is excluded from the running
best-of list and from every published result — it is never recorded with
score 0 and ranked.  (b) Under a total provider outage (every candidate
unusable), a non-cancelled session still completes: its state is
`Completed`, every published result list (including the final one) is
empty, and the last progress update reads `done = total` over the full
pool in scope. -/
theorem failedCandidates_excluded (cfg : MatchConfig) (sched : ℕ → ℕ → List ℕ)
    (photos : List Cand) (t : ℕ) :
    (∀ i : ℕ, ((photos.take cfg.scanMax).get? i = some none ∨
        (photos.take cfg.scanMax).get? i = some (some [])) →
      (∀ e ∈ (runMatching cfg sched photos t).1.scored, e.idx ≠ i) ∧
      (∀ m ∈ publishedLists (runMatching cfg sched photos t).1.evs, ∀ e ∈ m, e.idx ≠ i)) ∧
    ((∀ c ∈ photos, c = none ∨ c = some []) → photos ≠ [] →
      1 ≤ cfg.concurrency → 1 ≤ cfg.scanBatchSize →
      Ev.abortSeen ∉ (runMatching cfg sched photos t).1.evs →
      (runMatching cfg sched photos t).2 = SessState.completed ∧
      (∀ m ∈ publishedLists (runMatching cfg sched photos t).1.evs, m = []) ∧
      (progressEvents (runMatching cfg sched photos t).1.evs).getLast?
        = some (min cfg.scanMax photos.length, min cfg.scanMax photos.length)) := by
  constructor
  · intro i hi
    have hg := runMatching_goodEntries cfg sched photos t
    have hkey : ∀ e : Scored, GoodEntry photos cfg.scanMax e → e.idx ≠ i := by
      intro e ⟨_, sims', hc', hne', _⟩ heq
      rw [heq] at hc'
      rcases hi with hnone | hfaceless
      · rw [hnone] at hc'
        exact Option.noConfusion (Option.some.inj hc')
      · rw [hfaceless] at hc'
        exact hne' (Option.some.inj (Option.some.inj hc')).symm
    constructor
    · intro e he
      exact hkey e (hg.1 e he)
    · intro m hm e he
      exact hkey e (hg.2 m hm e he)
  · intro hall hne hC hB hno
    have hph : ¬photos.isEmpty = true := by
      simp [List.isEmpty_iff]
      exact hne
    set L := min cfg.scanMax photos.length with hL
    set pool := (photos.take cfg.scanMax).enum with hpool
    set s₀ : MatchSt :=
      { scored := [], t := t, k := 0, evs := [.publish [], .progress 0 L] } with hs0
    have hplen : pool.length = L := by
      rw [hpool, List.enum_length, List.length_take]
    have hpoolNil : ∀ c ∈ pool, c.2 = none ∨ c.2 = some [] := by
      intro c hc
      have hc' : (c.1, c.2) ∈ (photos.take cfg.scanMax).enum := by
        rw [Prod.mk.eta]
        exact hc
      have hg := List.mk_mem_enum_iff_get?.mp hc'
      exact hall c.2 (List.mem_of_mem_take (List.get?_mem hg))
    have hnil0 : AllNil s₀ := by
      constructor
      · rfl
      · intro m hm
        have : m ∈ ([[]] : List (List Scored)) := hm
        simpa using this
    set s₁ := runBatches cfg sched L pool.length pool 0 s₀ with hs1
    have hnil₁ : AllNil s₁ := runBatches_allNil cfg sched L pool.length pool 0 s₀ hpoolNil hnil0
    rw [runMatching_unfold cfg sched photos t hph] at hno ⊢
    by_cases hab : (doCheck s₁).1
    · exfalso
      rw [if_pos hab] at hno
      apply hno
      by_cases ht : s₁.t = 0
      · have : (doCheck s₁).2.evs = s₁.evs ++ [Ev.abortSeen] := by simp [doCheck, ht]
        rw [this]
        simp
      · simp [doCheck, ht] at hab
    · rw [if_neg hab] at hno ⊢
      obtain ⟨hevs, _⟩ := doCheck_evs_of_false (s := s₁) (by simpa using hab)
      have hscored₁ : (doCheck s₁).2.scored = [] := by
        have h2 : (doCheck s₁).2.scored = s₁.scored := by
          by_cases ht : s₁.t = 0
          · simp [doCheck, ht] at hab
          · simp [doCheck, ht]
        rw [h2, hnil₁.1]
      refine ⟨rfl, ?_, ?_⟩
      · intro m hm
        have hm2 : m ∈ publishedLists ((doCheck s₁).2.evs ++
            [Ev.publishFinal (((sortByScore (doCheck s₁).2.scored).filter
              fun e => cfg.threshold ≤ e.score).take 8)]) := hm
        rw [publishedLists_append] at hm2
        rcases List.mem_append.mp hm2 with hm' | hm'
        · rw [hevs] at hm'
          exact hnil₁.2 m hm'
        · have hmm := List.mem_singleton.mp hm'
          rw [hmm, hscored₁]
          rfl
      · have hprogs : progressEvents ((doCheck s₁).2.evs ++
            [Ev.publishFinal (((sortByScore (doCheck s₁).2.scored).filter
              fun e => cfg.threshold ≤ e.score).take 8)]) = progressEvents s₁.evs := by
          rw [progressEvents_append, hevs]
          simp [progressEvents]
        show (progressEvents ((doCheck s₁).2.evs ++ [Ev.publishFinal _])).getLast? = some (L, L)
        rw [hprogs]
        have hno₁ : Ev.abortSeen ∉ s₁.evs := by
          intro hmem
          apply hno
          have : Ev.abortSeen ∈ (doCheck s₁).2.evs := by
            rw [hevs]
            exact hmem
          show Ev.abortSeen ∈ (doCheck s₁).2.evs ++ [Ev.publishFinal _]
          exact List.mem_append_left _ this
        by_cases hpool0 : pool = []
        · have hL0 : L = 0 := by
            rw [← hplen, hpool0]
            rfl
          rw [hs1, hpool0, runBatches_nil, hs0]
          simp [progressEvents, hL0]
        · obtain ⟨d, hd, hlast⟩ := runBatches_progress_last cfg sched L hC hB
            pool.length pool 0 s₀ le_rfl hpool0 (by rw [← hs1]; exact hno₁)
          rw [hs1]
          rw [hlast]
          have : min L d = L := by
            apply min_eq_left
            omega
          rw [this]

/-- Closed witness for `failedCandidates_excluded`: a pool of one
unresolvable candidate and one faceless candidate (a total outage), not
cancelled. -/
theorem failedCandidates_excluded_witness :
    ((([none, some []] : List Cand).take (sourceConfig 2).scanMax).get? 0 = some none ∧
      (∀ c ∈ ([none, some []] : List Cand), c = none ∨ c = some []) ∧
      ([none, some []] : List Cand) ≠ [] ∧
      1 ≤ (sourceConfig 2).concurrency ∧ 1 ≤ (sourceConfig 2).scanBatchSize ∧
      Ev.abortSeen ∉
        (runMatching (sourceConfig 2) (fun _ n => List.range n) [none, some []] 100).1.evs) ∧
    ((∀ e ∈ (runMatching (sourceConfig 2) (fun _ n => List.range n) [none, some []] 100).1.scored,
        e.idx ≠ 0) ∧
      (∀ m ∈ publishedLists
          (runMatching (sourceConfig 2) (fun _ n => List.range n) [none, some []] 100).1.evs,
        ∀ e ∈ m, e.idx ≠ 0)) ∧
    ((runMatching (sourceConfig 2) (fun _ n => List.range n) [none, some []] 100).2
        = SessState.completed ∧
      (∀ m ∈ publishedLists
          (runMatching (sourceConfig 2) (fun _ n => List.range n) [none, some []] 100).1.evs,
        m = []) ∧
      (progressEvents
          (runMatching (sourceConfig 2) (fun _ n => List.range n) [none, some []] 100).1.evs).getLast?
        = some (min (sourceConfig 2).scanMax ([none, some []] : List Cand).length,
            min (sourceConfig 2).scanMax ([none, some []] : List Cand).length)) :=
  ⟨⟨by decide, by decide, by decide, by decide, by decide, by decide⟩,
    (failedCandidates_excluded (sourceConfig 2) (fun _ n => List.range n)
      [none, some []] 100).1 0 (Or.inl (by decide)),
    (failedCandidates_excluded (sourceConfig 2) (fun _ n => List.range n)
      [none, some []] 100).2 (by decide) (by decide) (by decide) (by decide) (by decide)⟩

/-! ### Progress monotonicity (C6) -/

/-- The progress updates of a trace are non-decreasing in `done`. -/
def ProgMono (evs : List Ev) : Prop :=
  (progressEvents evs).Pairwise fun p q => p.1 ≤ q.1

def ProgBounded (evs : List Ev) (b : ℕ) : Prop :=
  ∀ p ∈ progressEvents evs, p.1 ≤ b

/-- Every progress update has `done ≤ total`. -/
def DoneLe (evs : List Ev) : Prop :=
  ∀ p ∈ progressEvents evs, p.1 ≤ p.2

/-- Exact description of the progress updates added by the chunk loop: the
`j`-th update (0-based) publishes `done = min L (start + i + (j+1)·C)` and
`total = L`, and before each executed iteration the remainder was
non-empty. -/
lemma runChunks_progress_trace (cfg : MatchConfig) (sched : ℕ → ℕ → List ℕ)
    (L start : ℕ) :
    ∀ (fuel : ℕ) (rem : List (ℕ × Cand)) (i : ℕ) (s : MatchSt),
      ∃ m, progressEvents (runChunks cfg sched L start fuel rem i s).evs
          = progressEvents s.evs ++
            ((List.range m).map fun j =>
              (min L (start + i + (j + 1) * cfg.concurrency), L)) ∧
        ∀ j < m, cfg.concurrency * j < rem.length := by
  intro fuel
  induction fuel with
  | zero =>
    intro rem i s
    refine ⟨0, by cases rem <;> simp [runChunks_nil, runChunks], by simp⟩
  | succ fuel ih =>
    intro rem i s
    cases rem with
    | nil => exact ⟨0, by simp [runChunks_nil], by simp⟩
    | cons c rest =>
      rw [runChunks]
      by_cases hc : (doCheck s).1
      · simp only [hc, if_true]
        refine ⟨0, ?_, by simp⟩
        by_cases ht : s.t = 0
        · have heq : (doCheck s).2.evs = s.evs ++ [Ev.abortSeen] := by simp [doCheck, ht]
          rw [heq, progressEvents_append]
          simp [progressEvents]
        · simp [doCheck, ht] at hc
      · simp only [hc, Bool.false_eq_true, if_false]
        obtain ⟨hevs, _⟩ := doCheck_evs_of_false (s := s) (by simpa using hc)
        set chunk := c :: rest.take (cfg.concurrency - 1) with hchunk
        set sc := scoreChunk chunk (doCheck s).2 with hscdef
        set s₄ : MatchSt := { sc.2 with
          k := sc.2.k + 1,
          scored := mergeResults sc.2.scored (promiseAll sc.1 (sched sc.2.k chunk.length)),
          evs := sc.2.evs ++ [Ev.progress (min L (start + (i + cfg.concurrency))) L] } with hs4
        obtain ⟨u, hu, hpu, _⟩ := scoreChunk_evs chunk (doCheck s).2
        have hprogs₄ : progressEvents s₄.evs
            = progressEvents s.evs ++ [(min L (start + i + cfg.concurrency), L)] := by
          have hevs₄ : s₄.evs = sc.2.evs ++ [Ev.progress (min L (start + (i + cfg.concurrency))) L] := rfl
          rw [hevs₄, progressEvents_append]
          rw [show sc.2.evs = (doCheck s).2.evs ++ u from hu, progressEvents_append, hpu, hevs]
          have harith : start + (i + cfg.concurrency) = start + i + cfg.concurrency := by ring
          simp [progressEvents, harith]
        obtain ⟨m', hm'eq, hm'lt⟩ := ih (rest.drop (cfg.concurrency - 1)) (i + cfg.concurrency) s₄
        refine ⟨m' + 1, ?_, ?_⟩
        · have hcomp : ((fun j => (min L (start + i + (j + 1) * cfg.concurrency), L)) ∘ Nat.succ)
              = fun j => (min L (start + (i + cfg.concurrency) + (j + 1) * cfg.concurrency), L) := by
            funext j
            have harith : start + i + (j + 1 + 1) * cfg.concurrency
                = start + (i + cfg.concurrency) + (j + 1) * cfg.concurrency := by ring
            simp [Function.comp, Nat.succ_eq_add_one, harith]
          have hmap : ((List.range (m' + 1)).map fun j =>
                (min L (start + i + (j + 1) * cfg.concurrency), L))
              = (min L (start + i + cfg.concurrency), L) ::
                ((List.range m').map fun j =>
                  (min L (start + (i + cfg.concurrency) + (j + 1) * cfg.concurrency), L)) := by
            rw [List.range_succ_eq_map, List.map_cons, List.map_map, hcomp]
            norm_num
          rw [hm'eq, hprogs₄, hmap, List.append_assoc, List.singleton_append]
        · intro j hj
          cases j with
          | zero => simp
          | succ j' =>
            have hj' : j' < m' := by omega
            have hlt := hm'lt j' hj'
            rcases Nat.eq_zero_or_pos cfg.concurrency with hC0 | hC1
            · simp [hC0]
            · have hdrop := List.length_drop (cfg.concurrency - 1) rest
              rw [hdrop] at hlt
              have h1 : cfg.concurrency * j' + (cfg.concurrency - 1) < rest.length :=
                Nat.add_lt_of_lt_sub hlt
              have h2 : cfg.concurrency * (j' + 1) = cfg.concurrency * j' + cfg.concurrency := by
                ring
              simp only [List.length_cons]
              omega

/-- The batch loop preserves progress monotonicity and the `done ≤ total`
bound, given that everything published so far is below the next update. -/
lemma runBatches_progress_mono (cfg : MatchConfig) (sched : ℕ → ℕ → List ℕ) (L : ℕ) :
    ∀ (fuel : ℕ) (rem : List (ℕ × Cand)) (start : ℕ) (s : MatchSt) (b : ℕ),
      ProgMono s.evs → DoneLe s.evs → ProgBounded s.evs b →
      b ≤ min L (start + cfg.concurrency) →
      ProgMono (runBatches cfg sched L fuel rem start s).evs ∧
      DoneLe (runBatches cfg sched L fuel rem start s).evs := by
  intro fuel
  induction fuel with
  | zero =>
    intro rem start s b hm hd _ _
    cases rem with
    | nil => exact ⟨hm, hd⟩
    | cons c rest => exact ⟨hm, hd⟩
  | succ fuel ih =>
    intro rem start s b hm hd hb hble
    cases rem with
    | nil => exact ⟨hm, hd⟩
    | cons c rest =>
      rw [runBatches]
      by_cases hc : (doCheck s).1
      · simp only [hc, if_true]
        by_cases ht : s.t = 0
        · have heq : (doCheck s).2.evs = s.evs ++ [Ev.abortSeen] := by simp [doCheck, ht]
          have hp : progressEvents (doCheck s).2.evs = progressEvents s.evs := by
            rw [heq, progressEvents_append]
            simp [progressEvents]
          exact ⟨by rw [ProgMono, hp]; exact hm, by rw [DoneLe, hp]; exact hd⟩
        · simp [doCheck, ht] at hc
      · simp only [hc, Bool.false_eq_true, if_false]
        obtain ⟨hevs, _⟩ := doCheck_evs_of_false (s := s) (by simpa using hc)
        set batch := c :: rest.take (cfg.scanBatchSize - 1) with hbatch
        set s₂ : MatchSt :=
          { (doCheck s).2 with evs := (doCheck s).2.evs ++ [Ev.batchStart start] } with hs2
        have hprogs₂ : progressEvents s₂.evs = progressEvents s.evs := by
          have : s₂.evs = (doCheck s).2.evs ++ [Ev.batchStart start] := rfl
          rw [this, hevs, progressEvents_append]
          simp [progressEvents]
        set s₃ := runChunks cfg sched L start batch.length batch 0 s₂ with hs3
        obtain ⟨m, hm3, hmlt⟩ := runChunks_progress_trace cfg sched L start
          batch.length batch 0 s₂
        rw [hprogs₂] at hm3
        set news := (List.range m).map
          (fun j => (min L (start + 0 + (j + 1) * cfg.concurrency), L)) with hnews
        have hblen : batch.length ≤ max cfg.scanBatchSize 1 := by
          rw [hbatch]
          simp only [List.length_cons, List.length_take]
          omega
        have hvals : ∀ p ∈ news, b ≤ p.1 ∧
            p.1 ≤ min L (start + cfg.scanBatchSize + cfg.concurrency) ∧ p.1 ≤ p.2 := by
          intro p hp
          rw [hnews] at hp
          simp only [List.mem_map, List.mem_range] at hp
          obtain ⟨j, hj, rfl⟩ := hp
          refine ⟨?_, ?_, ?_⟩
          · refine le_trans hble (min_le_min le_rfl ?_)
            have : cfg.concurrency ≤ (j + 1) * cfg.concurrency :=
              Nat.le_mul_of_pos_left _ (Nat.succ_pos j)
            omega
          · apply min_le_min le_rfl
            have hlt := hmlt j hj
            have hmul : (j + 1) * cfg.concurrency = cfg.concurrency * j + cfg.concurrency := by
              ring
            omega
          · exact min_le_left _ _
        have hmono₃ : ProgMono s₃.evs := by
          rw [ProgMono, hm3, List.pairwise_append]
          refine ⟨hm, ?_, ?_⟩
          · rw [hnews, List.pairwise_map]
            apply (List.pairwise_lt_range m).imp
            intro a a' haa
            simp only
            apply min_le_min le_rfl
            have : (a + 1) * cfg.concurrency ≤ (a' + 1) * cfg.concurrency :=
              Nat.mul_le_mul_right _ (by omega)
            omega
          · intro p hp q hq
            exact le_trans (hb p hp) (hvals q hq).1
        have hdone₃ : DoneLe s₃.evs := by
          rw [DoneLe, hm3]
          intro p hp
          rcases List.mem_append.mp hp with hp' | hp'
          · exact hd p hp'
          · exact (hvals p hp').2.2
        have hbound₃ : ProgBounded s₃.evs
            (min L (start + cfg.scanBatchSize + cfg.concurrency)) := by
          rw [ProgBounded, hm3]
          intro p hp
          rcases List.mem_append.mp hp with hp' | hp'
          · refine le_trans (hb p hp') (le_trans hble (min_le_min le_rfl ?_))
            omega
          · exact (hvals p hp').2.1
        set s₅ : MatchSt := { s₃ with
          scored := (sortByScore s₃.scored).take cfg.topKeep,
          evs := s₃.evs ++ [Ev.publish (publishTop cfg.threshold
            ((sortByScore s₃.scored).take cfg.topKeep))] } with hs5
        have hprogs₅ : progressEvents s₅.evs = progressEvents s₃.evs := by
          have : s₅.evs = s₃.evs ++ [Ev.publish (publishTop cfg.threshold
              ((sortByScore s₃.scored).take cfg.topKeep))] := rfl
          rw [this, progressEvents_append]
          simp [progressEvents]
        apply ih (rest.drop (cfg.scanBatchSize - 1)) (start + cfg.scanBatchSize) s₅
          (min L (start + cfg.scanBatchSize + cfg.concurrency))
        · rw [ProgMono, hprogs₅]
          exact hmono₃
        · rw [DoneLe, hprogs₅]
          exact hdone₃
        · rw [ProgBounded, hprogs₅]
          exact hbound₃
        · apply min_le_min le_rfl
          omega

/-- **C6.**  Within one match session, the published progress counter is
monotone: `done` is non-decreasing across successive published updates
(`Pairwise (≤)` over the trace's progress events), and no update ever
reports `done > total`. -/
theorem progress_monotone (cfg : MatchConfig) (sched : ℕ → ℕ → List ℕ)
    (photos : List Cand) (t : ℕ) :
    ((progressEvents (runMatching cfg sched photos t).1.evs).Pairwise
      fun p q => p.1 ≤ q.1) ∧
    ∀ p ∈ progressEvents (runMatching cfg sched photos t).1.evs, p.1 ≤ p.2 := by
  by_cases hph : photos.isEmpty
  · constructor
    · simp [runMatching, hph, progressEvents]
    · intro p hp
      simp [runMatching, hph, progressEvents] at hp
  · set L := min cfg.scanMax photos.length with hL
    set pool := (photos.take cfg.scanMax).enum with hpool
    set s₀ : MatchSt :=
      { scored := [], t := t, k := 0, evs := [.publish [], .progress 0 L] } with hs0
    have hm0 : ProgMono s₀.evs := by
      rw [ProgMono]
      have : progressEvents s₀.evs = [(0, L)] := rfl
      rw [this]
      simp
    have hd0 : DoneLe s₀.evs := by
      rw [DoneLe]
      intro p hp
      have hpe : p ∈ [((0 : ℕ), L)] := hp
      simp at hpe
      rw [hpe]
      exact Nat.zero_le _
    have hb0 : ProgBounded s₀.evs 0 := by
      rw [ProgBounded]
      intro p hp
      have hpe : p ∈ [((0 : ℕ), L)] := hp
      simp at hpe
      rw [hpe]
    set s₁ := runBatches cfg sched L pool.length pool 0 s₀ with hs1
    obtain ⟨hm₁, hd₁⟩ := runBatches_progress_mono cfg sched L pool.length pool 0 s₀ 0
      hm0 hd0 hb0 (Nat.zero_le _)
    rw [runMatching_unfold cfg sched photos t hph]
    by_cases hab : (doCheck s₁).1
    · rw [if_pos hab]
      have hp : progressEvents (doCheck s₁).2.evs = progressEvents s₁.evs := by
        by_cases ht : s₁.t = 0
        · have heq : (doCheck s₁).2.evs = s₁.evs ++ [Ev.abortSeen] := by simp [doCheck, ht]
          rw [heq, progressEvents_append]
          simp [progressEvents]
        · simp [doCheck, ht] at hab
      exact ⟨by rw [hp]; exact hm₁, by rw [hp]; exact hd₁⟩
    · rw [if_neg hab]
      obtain ⟨hevs, _⟩ := doCheck_evs_of_false (s := s₁) (by simpa using hab)
      have hp : progressEvents ((doCheck s₁).2.evs ++
          [Ev.publishFinal (((sortByScore (doCheck s₁).2.scored).filter
            fun e => cfg.threshold ≤ e.score).take 8)]) = progressEvents s₁.evs := by
        rw [progressEvents_append, hevs]
        simp [progressEvents]
      exact ⟨by rw [show progressEvents _ = progressEvents s₁.evs from hp]; exact hm₁,
        by rw [show progressEvents _ = progressEvents s₁.evs from hp]; exact hd₁⟩

/-! ### Determinism and result ordering (C3)

`Promise.all` resolves positionally: whatever order the workers complete
in, the resolved array equals the input-order result list.  Hence two
sessions over the same pool with the same query differ only in their
completion schedules, and produce identical traces; and the merge step
always appends candidates in enumeration order, so the stable score sort
breaks ties by enumeration order. -/

lemma lookup_map_tag (order : List ℕ) (f : ℕ → Option Scored) (i : ℕ)
    (h : i ∈ order) :
    (order.map fun j => (j, f j)).lookup i = some (f i) := by
  induction order with
  | nil => simp at h
  | cons j rest ih =>
    rw [List.map_cons, List.lookup]
    by_cases hij : i == j
    · simp only [hij]
      have : i = j := by simpa using hij
      rw [this]
    · have hijf : (i == j) = false := by simpa using hij
      simp only [hijf]
      apply ih
      rcases List.mem_cons.mp h with rfl | h'
      · simp at hij
      · exact h'

lemma range_map_getD (vs : List (Option Scored)) :
    (List.range vs.length).map (fun i => vs.getD i none) = vs := by
  induction vs with
  | nil => rfl
  | cons v rest ih =>
    rw [List.length_cons, List.range_succ_eq_map, List.map_cons, List.map_map]
    congr 1

/-- `Promise.all` is completion-order independent: under any completion
order that is a permutation of the worker indices, the resolved array is
exactly the input-order result list. -/
lemma promiseAll_id (vs : List (Option Scored)) (order : List ℕ)
    (h : order.Perm (List.range vs.length)) :
    promiseAll vs order = vs := by
  unfold promiseAll
  have hlookup : ∀ i ∈ List.range vs.length,
      ((order.map fun j => (j, vs.getD j none)).lookup i).getD none = vs.getD i none := by
    intro i hi
    rw [lookup_map_tag order (fun j => vs.getD j none) i (h.mem_iff.mpr hi)]
    rfl
  calc (List.range vs.length).map (fun i => ((order.map fun j => (j, vs.getD j none)).lookup i).getD none)
      = (List.range vs.length).map (fun i => vs.getD i none) := by
        apply List.map_congr_left
        exact hlookup
    _ = vs := range_map_getD vs

/-- The pure, abort-free meaning of `scoreOne` on one candidate. -/
def scoreOnePure (c : ℕ × Cand) : Option Scored :=
  match c.2 with
  | none => none
  | some sims => if sims.isEmpty then none else some ⟨c.1, bestOf sims⟩

lemma scoreChunk_length (chunk : List (ℕ × Cand)) (s : MatchSt) :
    (scoreChunk chunk s).1.length = chunk.length := by
  induction chunk generalizing s with
  | nil => rfl
  | cons c cs ih =>
    show ((scoreOne c s).1 :: (scoreChunk cs (scoreOne c s).2).1).length = _
    rw [List.length_cons, ih]
    rfl

lemma scoreChunk_scored_k (chunk : List (ℕ × Cand)) (s : MatchSt) :
    (scoreChunk chunk s).2.scored = s.scored ∧ (scoreChunk chunk s).2.k = s.k := by
  induction chunk generalizing s with
  | nil => exact ⟨rfl, rfl⟩
  | cons c cs ih =>
    have hso : (scoreOne c s).2.scored = s.scored ∧ (scoreOne c s).2.k = s.k := by
      by_cases hc : (doCheck s).1
      · simp only [scoreOne, hc, if_true]
        by_cases ht : s.t = 0 <;> simp [doCheck, ht]
      · simp only [scoreOne, hc, Bool.false_eq_true, if_false]
        have hck : (doCheck s).2.scored = s.scored ∧ (doCheck s).2.k = s.k := by
          by_cases ht : s.t = 0 <;> simp [doCheck, ht]
        cases c.2 with
        | none => exact hck
        | some sims =>
          by_cases he : sims.isEmpty
          · simp only [he, if_true]
            exact hck
          · simp only [he, Bool.false_eq_true, if_false]
            exact hck
    obtain ⟨h1, h2⟩ := ih (scoreOne c s).2
    exact ⟨h1.trans hso.1, h2.trans hso.2⟩

/-- Positional alignment: the `j`-th result of `chunk.map(scoreOne)` is
`null` or the pure score of the `j`-th candidate. -/
lemma scoreChunk_forall₂ (chunk : List (ℕ × Cand)) (s : MatchSt) :
    List.Forall₂ (fun r c => r = none ∨ r = scoreOnePure c) (scoreChunk chunk s).1 chunk := by
  induction chunk generalizing s with
  | nil => exact List.Forall₂.nil
  | cons c cs ih =>
    show List.Forall₂ _ ((scoreOne c s).1 :: (scoreChunk cs (scoreOne c s).2).1) (c :: cs)
    refine List.Forall₂.cons ?_ (ih _)
    by_cases hc : (doCheck s).1
    · simp [scoreOne, hc]
    · simp only [scoreOne, hc, Bool.false_eq_true, if_false]
      cases hcc : c.2 with
      | none => simp [scoreOnePure, hcc]
      | some sims =>
        by_cases he : sims.isEmpty
        · simp [scoreOnePure, hcc, he]
        · simp [scoreOnePure, hcc, he]

/-- If the observed trace of `chunk.map(scoreOne)` shows no abort, every
worker ran to its pure result, and the state is unchanged but for the fuel. -/
lemma scoreChunk_no_abort (chunk : List (ℕ × Cand)) (s : MatchSt)
    (hno : Ev.abortSeen ∉ (scoreChunk chunk s).2.evs) :
    (scoreChunk chunk s).1 = chunk.map scoreOnePure ∧
    (scoreChunk chunk s).2.evs = s.evs := by
  induction chunk generalizing s with
  | nil => exact ⟨rfl, rfl⟩
  | cons c cs ih =>
    have hstep : (scoreChunk (c :: cs) s).2 = (scoreChunk cs (scoreOne c s).2).2 := rfl
    rw [hstep] at hno
    by_cases hc : (doCheck s).1
    · exfalso
      by_cases ht : s.t = 0
      · have habs : Ev.abortSeen ∈ (scoreOne c s).2.evs := by
          have : (scoreOne c s).2 = (doCheck s).2 := by
            simp only [scoreOne, hc, if_true]
          rw [this]
          have : (doCheck s).2.evs = s.evs ++ [Ev.abortSeen] := by simp [doCheck, ht]
          rw [this]
          simp
        obtain ⟨u, hu, _, _⟩ := scoreChunk_evs cs (scoreOne c s).2
        apply hno
        rw [hu]
        exact List.mem_append_left _ habs
      · simp [doCheck, ht] at hc
    · have hr : (scoreOne c s).1 = scoreOnePure c := by
        simp only [scoreOne, hc, Bool.false_eq_true, if_false]
        cases hcc : c.2 with
        | none => simp [scoreOnePure, hcc]
        | some sims =>
          by_cases he : sims.isEmpty
          · simp [scoreOnePure, hcc, he]
          · simp [scoreOnePure, hcc, he]
      have hevs : (scoreOne c s).2.evs = s.evs := by
        have ht : s.t ≠ 0 := by
          intro ht
          simp [doCheck, ht] at hc
        have : (scoreOne c s).2 = (doCheck s).2 := by
          simp only [scoreOne, hc, Bool.false_eq_true, if_false]
          cases c.2 with
          | none => rfl
          | some sims =>
            by_cases he : sims.isEmpty
            · simp [he]
            · simp [he]
        rw [this]
        simp [doCheck, ht]
      obtain ⟨hres, hevs'⟩ := ih (scoreOne c s).2 hno
      constructor
      · show (scoreOne c s).1 :: (scoreChunk cs (scoreOne c s).2).1 = _
        rw [hr, hres, List.map_cons]
      · show (scoreChunk cs (scoreOne c s).2).2.evs = s.evs
        rw [hevs', hevs]

lemma doCheck_false_fields {s : MatchSt} (h : (doCheck s).1 = false) :
    (doCheck s).2.scored = s.scored ∧ (doCheck s).2.evs = s.evs ∧ (doCheck s).2.k = s.k := by
  have ht := (doCheck_evs_of_false h).2
  simp [doCheck, ht]

lemma doCheck_true_evs {s : MatchSt} (h : (doCheck s).1 = true) :
    (doCheck s).2.evs = s.evs ++ [Ev.abortSeen] := by
  by_cases ht : s.t = 0
  · simp [doCheck, ht]
  · simp [doCheck, ht] at h

lemma doCheck_scored_k (s : MatchSt) :
    (doCheck s).2.scored = s.scored ∧ (doCheck s).2.k = s.k := by
  by_cases ht : s.t = 0 <;> simp [doCheck, ht]

lemma doCheck_published (s : MatchSt) :
    publishedLists (doCheck s).2.evs = publishedLists s.evs := by
  by_cases ht : s.t = 0
  · simp [doCheck, ht, publishedLists_append, publishedLists]
  · simp [doCheck, ht]

/-- The state after one iteration of the chunk loop (the `if` guard read
`false`), as a function of the iteration's inputs. -/
def chunkState (cfg : MatchConfig) (sched : ℕ → ℕ → List ℕ) (L start : ℕ)
    (c : ℕ × Cand) (rest : List (ℕ × Cand)) (i : ℕ) (s : MatchSt) : MatchSt :=
  let chunk := c :: rest.take (cfg.concurrency - 1)
  let sc := scoreChunk chunk (doCheck s).2
  { sc.2 with
    k := sc.2.k + 1,
    scored := mergeResults sc.2.scored (promiseAll sc.1 (sched sc.2.k chunk.length)),
    evs := sc.2.evs ++ [Ev.progress (min L (start + (i + cfg.concurrency))) L] }

lemma runChunks_cons_of_false (cfg : MatchConfig) (sched : ℕ → ℕ → List ℕ)
    (L start fuel : ℕ) (c : ℕ × Cand) (rest : List (ℕ × Cand)) (i : ℕ) (s : MatchSt)
    (h : (doCheck s).1 = false) :
    runChunks cfg sched L start (fuel + 1) (c :: rest) i s =
      runChunks cfg sched L start fuel (rest.drop (cfg.concurrency - 1))
        (i + cfg.concurrency) (chunkState cfg sched L start c rest i s) := by
  simp only [runChunks, h, Bool.false_eq_true, if_false]
  rfl

lemma runChunks_cons_of_true (cfg : MatchConfig) (sched : ℕ → ℕ → List ℕ)
    (L start fuel : ℕ) (c : ℕ × Cand) (rest : List (ℕ × Cand)) (i : ℕ) (s : MatchSt)
    (h : (doCheck s).1 = true) :
    runChunks cfg sched L start (fuel + 1) (c :: rest) i s = (doCheck s).2 := by
  simp only [runChunks, h, if_true]

lemma chunkState_evs (cfg : MatchConfig) (sched : ℕ → ℕ → List ℕ) (L start : ℕ)
    (c : ℕ × Cand) (rest : List (ℕ × Cand)) (i : ℕ) (s : MatchSt) :
    (chunkState cfg sched L start c rest i s).evs =
      (scoreChunk (c :: rest.take (cfg.concurrency - 1)) (doCheck s).2).2.evs ++
        [Ev.progress (min L (start + (i + cfg.concurrency))) L] := rfl

lemma chunkState_k (cfg : MatchConfig) (sched : ℕ → ℕ → List ℕ) (L start : ℕ)
    (c : ℕ × Cand) (rest : List (ℕ × Cand)) (i : ℕ) (s : MatchSt) :
    (chunkState cfg sched L start c rest i s).k =
      (scoreChunk (c :: rest.take (cfg.concurrency - 1)) (doCheck s).2).2.k + 1 := rfl

lemma chunkState_scored (cfg : MatchConfig) (sched : ℕ → ℕ → List ℕ) (L start : ℕ)
    (c : ℕ × Cand) (rest : List (ℕ × Cand)) (i : ℕ) (s : MatchSt) :
    (chunkState cfg sched L start c rest i s).scored =
      mergeResults (scoreChunk (c :: rest.take (cfg.concurrency - 1)) (doCheck s).2).2.scored
        (promiseAll (scoreChunk (c :: rest.take (cfg.concurrency - 1)) (doCheck s).2).1
          (sched (scoreChunk (c :: rest.take (cfg.concurrency - 1)) (doCheck s).2).2.k
            (c :: rest.take (cfg.concurrency - 1)).length)) := rfl

/-- Two chunk loops over the same remaining candidates, differing only in
their completion-order schedules and abort fuels, evolve identical
`scoredAll`, traces and chunk counters as long as neither observes the
abort flag. -/
lemma runChunks_bisim (cfg : MatchConfig) (sched₁ sched₂ : ℕ → ℕ → List ℕ) (L start : ℕ)
    (h₁ : ∀ k n, (sched₁ k n).Perm (List.range n))
    (h₂ : ∀ k n, (sched₂ k n).Perm (List.range n)) :
    ∀ (fuel : ℕ) (rem : List (ℕ × Cand)) (i : ℕ) (s s' : MatchSt),
      s.scored = s'.scored → s.evs = s'.evs → s.k = s'.k →
      Ev.abortSeen ∉ (runChunks cfg sched₁ L start fuel rem i s).evs →
      Ev.abortSeen ∉ (runChunks cfg sched₂ L start fuel rem i s').evs →
      (runChunks cfg sched₁ L start fuel rem i s).scored
          = (runChunks cfg sched₂ L start fuel rem i s').scored ∧
        (runChunks cfg sched₁ L start fuel rem i s).evs
          = (runChunks cfg sched₂ L start fuel rem i s').evs ∧
        (runChunks cfg sched₁ L start fuel rem i s).k
          = (runChunks cfg sched₂ L start fuel rem i s').k := by
  intro fuel
  induction fuel with
  | zero =>
    intro rem i s s' hS hE hK _ _
    cases rem with
    | nil => exact ⟨hS, hE, hK⟩
    | cons c rest => exact ⟨hS, hE, hK⟩
  | succ fuel ih =>
    intro rem i s s' hS hE hK hno₁ hno₂
    cases rem with
    | nil => exact ⟨hS, hE, hK⟩
    | cons c rest =>
      have hb1 : (doCheck s).1 = false := by
        by_cases hc : (doCheck s).1
        · exfalso
          apply hno₁
          rw [runChunks_cons_of_true cfg sched₁ L start fuel c rest i s hc,
            doCheck_true_evs hc]
          simp
        · simpa using hc
      have hb2 : (doCheck s').1 = false := by
        by_cases hc : (doCheck s').1
        · exfalso
          apply hno₂
          rw [runChunks_cons_of_true cfg sched₂ L start fuel c rest i s' hc,
            doCheck_true_evs hc]
          simp
        · simpa using hc
      rw [runChunks_cons_of_false cfg sched₁ L start fuel c rest i s hb1] at hno₁ ⊢
      rw [runChunks_cons_of_false cfg sched₂ L start fuel c rest i s' hb2] at hno₂ ⊢
      have hnoSC₁ : Ev.abortSeen ∉
          (scoreChunk (c :: rest.take (cfg.concurrency - 1)) (doCheck s).2).2.evs := by
        intro hmem
        apply hno₁
        obtain ⟨u, hu⟩ := runChunks_evs_grow cfg sched₁ L start fuel
          (rest.drop (cfg.concurrency - 1)) (i + cfg.concurrency)
          (chunkState cfg sched₁ L start c rest i s)
        rw [hu, chunkState_evs]
        exact List.mem_append_left _ (List.mem_append_left _ hmem)
      have hnoSC₂ : Ev.abortSeen ∉
          (scoreChunk (c :: rest.take (cfg.concurrency - 1)) (doCheck s').2).2.evs := by
        intro hmem
        apply hno₂
        obtain ⟨u, hu⟩ := runChunks_evs_grow cfg sched₂ L start fuel
          (rest.drop (cfg.concurrency - 1)) (i + cfg.concurrency)
          (chunkState cfg sched₂ L start c rest i s')
        rw [hu, chunkState_evs]
        exact List.mem_append_left _ (List.mem_append_left _ hmem)
      obtain ⟨hres₁, hevs₁⟩ := scoreChunk_no_abort _ _ hnoSC₁
      obtain ⟨hres₂, hevs₂⟩ := scoreChunk_no_abort _ _ hnoSC₂
      obtain ⟨hsck₁a, hsck₁b⟩ := scoreChunk_scored_k
        (c :: rest.take (cfg.concurrency - 1)) (doCheck s).2
      obtain ⟨hsck₂a, hsck₂b⟩ := scoreChunk_scored_k
        (c :: rest.take (cfg.concurrency - 1)) (doCheck s').2
      obtain ⟨hd₁a, hd₁b, hd₁c⟩ := doCheck_false_fields hb1
      obtain ⟨hd₂a, hd₂b, hd₂c⟩ := doCheck_false_fields hb2
      have hrs₁ : promiseAll (scoreChunk (c :: rest.take (cfg.concurrency - 1)) (doCheck s).2).1
          (sched₁ (scoreChunk (c :: rest.take (cfg.concurrency - 1)) (doCheck s).2).2.k
            (c :: rest.take (cfg.concurrency - 1)).length) =
          (c :: rest.take (cfg.concurrency - 1)).map scoreOnePure := by
        rw [hres₁]
        apply promiseAll_id
        rw [List.length_map]
        exact h₁ _ _
      have hrs₂ : promiseAll (scoreChunk (c :: rest.take (cfg.concurrency - 1)) (doCheck s').2).1
          (sched₂ (scoreChunk (c :: rest.take (cfg.concurrency - 1)) (doCheck s').2).2.k
            (c :: rest.take (cfg.concurrency - 1)).length) =
          (c :: rest.take (cfg.concurrency - 1)).map scoreOnePure := by
        rw [hres₂]
        apply promiseAll_id
        rw [List.length_map]
        exact h₂ _ _
      refine ih _ _ _ _ ?_ ?_ ?_ hno₁ hno₂
      · rw [chunkState_scored, chunkState_scored, hrs₁, hrs₂, hsck₁a, hsck₂a, hd₁a, hd₂a, hS]
      · rw [chunkState_evs, chunkState_evs, hevs₁, hevs₂, hd₁b, hd₂b, hE]
      · rw [chunkState_k, chunkState_k, hsck₁b, hsck₂b, hd₁c, hd₂c, hK]

/-- The state after the chunk loop of one batch (guard read `false`). -/
def batchPre (cfg : MatchConfig) (sched : ℕ → ℕ → List ℕ) (L : ℕ)
    (c : ℕ × Cand) (rest : List (ℕ × Cand)) (start : ℕ) (s : MatchSt) : MatchSt :=
  runChunks cfg sched L start (c :: rest.take (cfg.scanBatchSize - 1)).length
    (c :: rest.take (cfg.scanBatchSize - 1)) 0
    { (doCheck s).2 with evs := (doCheck s).2.evs ++ [Ev.batchStart start] }

/-- The state after one full iteration of the batch loop (guard read
`false`): chunk loop, `keepTop`, per-batch publish. -/
def batchState (cfg : MatchConfig) (sched : ℕ → ℕ → List ℕ) (L : ℕ)
    (c : ℕ × Cand) (rest : List (ℕ × Cand)) (start : ℕ) (s : MatchSt) : MatchSt :=
  { batchPre cfg sched L c rest start s with
    scored := (sortByScore (batchPre cfg sched L c rest start s).scored).take cfg.topKeep,
    evs := (batchPre cfg sched L c rest start s).evs ++
      [Ev.publish (publishTop cfg.threshold
        ((sortByScore (batchPre cfg sched L c rest start s).scored).take cfg.topKeep))] }

lemma runBatches_cons_of_false (cfg : MatchConfig) (sched : ℕ → ℕ → List ℕ)
    (L fuel : ℕ) (c : ℕ × Cand) (rest : List (ℕ × Cand)) (start : ℕ) (s : MatchSt)
    (h : (doCheck s).1 = false) :
    runBatches cfg sched L (fuel + 1) (c :: rest) start s =
      runBatches cfg sched L fuel (rest.drop (cfg.scanBatchSize - 1))
        (start + cfg.scanBatchSize) (batchState cfg sched L c rest start s) := by
  simp only [runBatches, h, Bool.false_eq_true, if_false]
  rfl

lemma runBatches_cons_of_true (cfg : MatchConfig) (sched : ℕ → ℕ → List ℕ)
    (L fuel : ℕ) (c : ℕ × Cand) (rest : List (ℕ × Cand)) (start : ℕ) (s : MatchSt)
    (h : (doCheck s).1 = true) :
    runBatches cfg sched L (fuel + 1) (c :: rest) start s = (doCheck s).2 := by
  simp only [runBatches, h, if_true]

lemma batchState_scored (cfg : MatchConfig) (sched : ℕ → ℕ → List ℕ) (L : ℕ)
    (c : ℕ × Cand) (rest : List (ℕ × Cand)) (start : ℕ) (s : MatchSt) :
    (batchState cfg sched L c rest start s).scored =
      (sortByScore (batchPre cfg sched L c rest start s).scored).take cfg.topKeep := rfl

lemma batchState_evs (cfg : MatchConfig) (sched : ℕ → ℕ → List ℕ) (L : ℕ)
    (c : ℕ × Cand) (rest : List (ℕ × Cand)) (start : ℕ) (s : MatchSt) :
    (batchState cfg sched L c rest start s).evs =
      (batchPre cfg sched L c rest start s).evs ++
        [Ev.publish (publishTop cfg.threshold
          ((sortByScore (batchPre cfg sched L c rest start s).scored).take cfg.topKeep))] := rfl

lemma batchState_k (cfg : MatchConfig) (sched : ℕ → ℕ → List ℕ) (L : ℕ)
    (c : ℕ × Cand) (rest : List (ℕ × Cand)) (start : ℕ) (s : MatchSt) :
    (batchState cfg sched L c rest start s).k =
      (batchPre cfg sched L c rest start s).k := rfl

/-- Two batch loops over the same remaining pool, differing only in their
completion-order schedules and abort fuels, evolve identical `scoredAll`,
traces and chunk counters as long as neither observes the abort flag. -/
lemma runBatches_bisim (cfg : MatchConfig) (sched₁ sched₂ : ℕ → ℕ → List ℕ) (L : ℕ)
    (h₁ : ∀ k n, (sched₁ k n).Perm (List.range n))
    (h₂ : ∀ k n, (sched₂ k n).Perm (List.range n)) :
    ∀ (fuel : ℕ) (rem : List (ℕ × Cand)) (start : ℕ) (s s' : MatchSt),
      s.scored = s'.scored → s.evs = s'.evs → s.k = s'.k →
      Ev.abortSeen ∉ (runBatches cfg sched₁ L fuel rem start s).evs →
      Ev.abortSeen ∉ (runBatches cfg sched₂ L fuel rem start s').evs →
      (runBatches cfg sched₁ L fuel rem start s).scored
          = (runBatches cfg sched₂ L fuel rem start s').scored ∧
        (runBatches cfg sched₁ L fuel rem start s).evs
          = (runBatches cfg sched₂ L fuel rem start s').evs ∧
        (runBatches cfg sched₁ L fuel rem start s).k
          = (runBatches cfg sched₂ L fuel rem start s').k := by
  intro fuel
  induction fuel with
  | zero =>
    intro rem start s s' hS hE hK _ _
    cases rem with
    | nil => exact ⟨hS, hE, hK⟩
    | cons c rest => exact ⟨hS, hE, hK⟩
  | succ fuel ih =>
    intro rem start s s' hS hE hK hno₁ hno₂
    cases rem with
    | nil => exact ⟨hS, hE, hK⟩
    | cons c rest =>
      have hb1 : (doCheck s).1 = false := by
        by_cases hc : (doCheck s).1
        · exfalso
          apply hno₁
          rw [runBatches_cons_of_true cfg sched₁ L fuel c rest start s hc,
            doCheck_true_evs hc]
          simp
        · simpa using hc
      have hb2 : (doCheck s').1 = false := by
        by_cases hc : (doCheck s').1
        · exfalso
          apply hno₂
          rw [runBatches_cons_of_true cfg sched₂ L fuel c rest start s' hc,
            doCheck_true_evs hc]
          simp
        · simpa using hc
      rw [runBatches_cons_of_false cfg sched₁ L fuel c rest start s hb1] at hno₁ ⊢
      rw [runBatches_cons_of_false cfg sched₂ L fuel c rest start s' hb2] at hno₂ ⊢
      have hnoP₁ : Ev.abortSeen ∉ (batchPre cfg sched₁ L c rest start s).evs := by
        intro hmem
        apply hno₁
        obtain ⟨u, hu⟩ := runBatches_evs_grow cfg sched₁ L fuel
          (rest.drop (cfg.scanBatchSize - 1)) (start + cfg.scanBatchSize)
          (batchState cfg sched₁ L c rest start s)
        rw [hu, batchState_evs]
        exact List.mem_append_left _ (List.mem_append_left _ hmem)
      have hnoP₂ : Ev.abortSeen ∉ (batchPre cfg sched₂ L c rest start s').evs := by
        intro hmem
        apply hno₂
        obtain ⟨u, hu⟩ := runBatches_evs_grow cfg sched₂ L fuel
          (rest.drop (cfg.scanBatchSize - 1)) (start + cfg.scanBatchSize)
          (batchState cfg sched₂ L c rest start s')
        rw [hu, batchState_evs]
        exact List.mem_append_left _ (List.mem_append_left _ hmem)
      obtain ⟨hd₁a, hd₁b, hd₁c⟩ := doCheck_false_fields hb1
      obtain ⟨hd₂a, hd₂b, hd₂c⟩ := doCheck_false_fields hb2
      obtain ⟨hpS, hpE, hpK⟩ := runChunks_bisim cfg sched₁ sched₂ L start h₁ h₂
        (c :: rest.take (cfg.scanBatchSize - 1)).length
        (c :: rest.take (cfg.scanBatchSize - 1)) 0
        { (doCheck s).2 with evs := (doCheck s).2.evs ++ [Ev.batchStart start] }
        { (doCheck s').2 with evs := (doCheck s').2.evs ++ [Ev.batchStart start] }
        (hd₁a.trans (hS.trans hd₂a.symm))
        (by show (doCheck s).2.evs ++ [Ev.batchStart start] = (doCheck s').2.evs ++ [Ev.batchStart start]
            rw [hd₁b, hE, ← hd₂b])
        (hd₁c.trans (hK.trans hd₂c.symm))
        hnoP₁ hnoP₂
      have hqS : (batchPre cfg sched₁ L c rest start s).scored
          = (batchPre cfg sched₂ L c rest start s').scored := hpS
      have hqE : (batchPre cfg sched₁ L c rest start s).evs
          = (batchPre cfg sched₂ L c rest start s').evs := hpE
      have hqK : (batchPre cfg sched₁ L c rest start s).k
          = (batchPre cfg sched₂ L c rest start s').k := hpK
      refine ih _ _ _ _ ?_ ?_ ?_ hno₁ hno₂
      · rw [batchState_scored, batchState_scored, hqS]
      · rw [batchState_evs, batchState_evs, hqS, hqE]
      · rw [batchState_k, batchState_k]
        exact hqK

lemma scoreOnePure_idx {c : ℕ × Cand} {x : Scored} (h : scoreOnePure c = some x) :
    x.idx = c.1 := by
  unfold scoreOnePure at h
  cases hc : c.2 with
  | none =>
    rw [hc] at h
    simp at h
  | some sims =>
    rw [hc] at h
    by_cases he : sims.isEmpty
    · simp [he] at h
    · simp only [he, Bool.false_eq_true, if_false, Option.some.injEq] at h
      rw [← h]

/-- The merge step keeps the enumeration order of a chunk: since the chunk's
results are positionally aligned with the chunk and the chunk's indices are
strictly increasing, the surviving entries' indices are strictly increasing
and each belongs to the chunk. -/
lemma merge_align (rs : List (Option Scored)) (chunk : List (ℕ × Cand))
    (hal : List.Forall₂ (fun r c => r = none ∨ r = scoreOnePure c) rs chunk) :
    ((chunk.map Prod.fst).Pairwise (· < ·)) →
    ((rs.filterMap fun r => r.bind fun x => if 0 ≤ x.score then some x else none).Pairwise
        fun a b => a.idx < b.idx) ∧
      ∀ x ∈ rs.filterMap fun r => r.bind fun x => if 0 ≤ x.score then some x else none,
        ∃ c ∈ chunk, x.idx = c.1 := by
  induction hal with
  | nil =>
    intro _
    exact ⟨List.Pairwise.nil, by simp⟩
  | cons hrc hal' ih =>
    rename_i r c rs' chunk'
    intro hch
    rw [List.map_cons, List.pairwise_cons] at hch
    obtain ⟨ihp, ihm⟩ := ih hch.2
    rw [List.filterMap_cons]
    cases hpr : (r.bind fun x => if 0 ≤ x.score then some x else none) with
    | none =>
      refine ⟨ihp, fun x hx => ?_⟩
      obtain ⟨c', hc', hidx⟩ := ihm x hx
      exact ⟨c', List.mem_cons_of_mem _ hc', hidx⟩
    | some x =>
      have hx : x.idx = c.1 := by
        rcases hrc with h | h
        · rw [h] at hpr
          simp at hpr
        · rw [h] at hpr
          cases hsp : scoreOnePure c with
          | none =>
            rw [hsp] at hpr
            simp at hpr
          | some y =>
            rw [hsp] at hpr
            have hyx : y = x := by
              by_cases hy : (0:ℚ) ≤ y.score
              · simpa [hy] using hpr
              · simp [hy] at hpr
            rw [← hyx]
            exact scoreOnePure_idx hsp
      constructor
      · rw [List.pairwise_cons]
        refine ⟨?_, ihp⟩
        intro b hb
        obtain ⟨c', hc', hbidx⟩ := ihm b hb
        rw [hx, hbidx]
        exact hch.1 _ (List.mem_map_of_mem _ hc')
      · intro b hb
        rcases List.mem_cons.mp hb with rfl | hb'
        · exact ⟨c, List.mem_cons_self _ _, hx⟩
        · obtain ⟨c', hc', hidx⟩ := ihm b hb'
          exact ⟨c', List.mem_cons_of_mem _ hc', hidx⟩

/-- Order invariant through the chunk loop: under a valid completion-order
schedule, `scoredAll` stays tie-ordered by enumeration index, every entry's
index stays below all indices still to be processed after this batch, and
the chunk loop publishes no result lists. -/
lemma runChunks_ord (cfg : MatchConfig) (sched : ℕ → ℕ → List ℕ) (L start : ℕ)
    (hsched : ∀ k n, (sched k n).Perm (List.range n)) :
    ∀ (fuel : ℕ) (rem R : List (ℕ × Cand)) (i : ℕ) (s : MatchSt),
      s.scored.Pairwise TieLt →
      (∀ e ∈ s.scored, ∀ c ∈ rem ++ R, e.idx < c.1) →
      (((rem ++ R).map Prod.fst).Pairwise (· < ·)) →
      (runChunks cfg sched L start fuel rem i s).scored.Pairwise TieLt ∧
        (∀ e ∈ (runChunks cfg sched L start fuel rem i s).scored, ∀ c ∈ R, e.idx < c.1) ∧
        publishedLists (runChunks cfg sched L start fuel rem i s).evs
          = publishedLists s.evs := by
  intro fuel
  induction fuel with
  | zero =>
    intro rem R i s h1 h2 _
    cases rem with
    | nil => exact ⟨h1, fun e he c hc => h2 e he c (List.mem_append_right _ hc), rfl⟩
    | cons c rest => exact ⟨h1, fun e he c hc => h2 e he c (List.mem_append_right _ hc), rfl⟩
  | succ fuel ih =>
    intro rem R i s h1 h2 h3
    cases rem with
    | nil => exact ⟨h1, fun e he c hc => h2 e he c (List.mem_append_right _ hc), rfl⟩
    | cons c rest =>
      by_cases hb : (doCheck s).1
      · rw [runChunks_cons_of_true cfg sched L start fuel c rest i s hb]
        obtain ⟨hda, _⟩ := doCheck_scored_k s
        refine ⟨by rw [hda]; exact h1, ?_, doCheck_published s⟩
        intro e he c' hc'
        rw [hda] at he
        exact h2 e he c' (List.mem_append_right _ hc')
      · have hb' : (doCheck s).1 = false := by simpa using hb
        rw [runChunks_cons_of_false cfg sched L start fuel c rest i s hb']
        have hsplit : (c :: rest : List (ℕ × Cand)) =
            (c :: rest.take (cfg.concurrency - 1)) ++ rest.drop (cfg.concurrency - 1) := by
          rw [List.cons_append, List.take_append_drop]
        rw [hsplit, List.append_assoc] at h2 h3
        rw [List.map_append] at h3
        obtain ⟨hchunkPW, hrestPW, hcross⟩ := List.pairwise_append.mp h3
        have hal := scoreChunk_forall₂ (c :: rest.take (cfg.concurrency - 1)) (doCheck s).2
        obtain ⟨hnewsPW, hnewsMem⟩ := merge_align _ _ hal hchunkPW
        have hrs : promiseAll (scoreChunk (c :: rest.take (cfg.concurrency - 1)) (doCheck s).2).1
            (sched (scoreChunk (c :: rest.take (cfg.concurrency - 1)) (doCheck s).2).2.k
              (c :: rest.take (cfg.concurrency - 1)).length) =
            (scoreChunk (c :: rest.take (cfg.concurrency - 1)) (doCheck s).2).1 := by
          apply promiseAll_id
          rw [scoreChunk_length]
          exact hsched _ _
        obtain ⟨hsca, hsck⟩ :=
          scoreChunk_scored_k (c :: rest.take (cfg.concurrency - 1)) (doCheck s).2
        obtain ⟨hda, hdb, hdc⟩ := doCheck_false_fields hb'
        have hcsS : (chunkState cfg sched L start c rest i s).scored =
            s.scored ++
              (scoreChunk (c :: rest.take (cfg.concurrency - 1)) (doCheck s).2).1.filterMap
                (fun r => r.bind fun x => if 0 ≤ x.score then some x else none) := by
          rw [chunkState_scored, hrs, hsca, hda]
          rfl
        have hI1 : (chunkState cfg sched L start c rest i s).scored.Pairwise TieLt := by
          rw [hcsS, List.pairwise_append]
          refine ⟨h1, hnewsPW.imp fun hab => show TieLt _ _ from fun _ => hab, ?_⟩
          intro a ha b hb
          obtain ⟨c', hc', hbidx⟩ := hnewsMem b hb
          intro _
          rw [hbidx]
          exact h2 a ha c' (List.mem_append_left _ hc')
        have hI2 : ∀ e ∈ (chunkState cfg sched L start c rest i s).scored,
            ∀ c' ∈ rest.drop (cfg.concurrency - 1) ++ R, e.idx < c'.1 := by
          rw [hcsS]
          intro e he c' hc'
          rcases List.mem_append.mp he with hold | hnew
          · exact h2 e hold c' (List.mem_append_right _ hc')
          · obtain ⟨c'', hc'', hidx⟩ := hnewsMem e hnew
            rw [hidx]
            exact hcross _ (List.mem_map_of_mem _ hc'') _ (List.mem_map_of_mem _ hc')
        obtain ⟨hA, hB, hC⟩ := ih (rest.drop (cfg.concurrency - 1)) R (i + cfg.concurrency)
          (chunkState cfg sched L start c rest i s) hI1 hI2 hrestPW
        refine ⟨hA, hB, ?_⟩
        rw [hC, chunkState_evs, publishedLists_append]
        obtain ⟨u, hu, _, hpub⟩ :=
          scoreChunk_evs (c :: rest.take (cfg.concurrency - 1)) (doCheck s).2
        rw [hu, publishedLists_append, hpub, hdb]
        simp [publishedLists]

lemma publishTop_sorted_tie {θ : ℚ} {l : List Scored} (h : l.Pairwise TieLt) :
    SortedDesc (publishTop θ l) ∧ (publishTop θ l).Pairwise TieLt := by
  constructor
  · exact List.Pairwise.sublist (List.take_sublist _ _) (sortByScore_sorted _)
  · exact List.Pairwise.sublist (List.take_sublist _ _)
      (sortByScore_tie _ (List.Pairwise.filter _ h))

/-- Order invariant through the batch loop: under a valid completion-order
schedule, `scoredAll` stays tie-ordered by enumeration index and every
published list is sorted by descending score with ties in enumeration
order. -/
lemma runBatches_ord (cfg : MatchConfig) (sched : ℕ → ℕ → List ℕ) (L : ℕ)
    (hsched : ∀ k n, (sched k n).Perm (List.range n)) :
    ∀ (fuel : ℕ) (rem : List (ℕ × Cand)) (start : ℕ) (s : MatchSt),
      s.scored.Pairwise TieLt →
      (∀ e ∈ s.scored, ∀ c ∈ rem, e.idx < c.1) →
      ((rem.map Prod.fst).Pairwise (· < ·)) →
      (∀ m ∈ publishedLists s.evs, SortedDesc m ∧ m.Pairwise TieLt) →
      (runBatches cfg sched L fuel rem start s).scored.Pairwise TieLt ∧
        ∀ m ∈ publishedLists (runBatches cfg sched L fuel rem start s).evs,
          SortedDesc m ∧ m.Pairwise TieLt := by
  intro fuel
  induction fuel with
  | zero =>
    intro rem start s h1 _ _ h4
    cases rem with
    | nil => exact ⟨h1, h4⟩
    | cons c rest => exact ⟨h1, h4⟩
  | succ fuel ih =>
    intro rem start s h1 h2 h3 h4
    cases rem with
    | nil => exact ⟨h1, h4⟩
    | cons c rest =>
      by_cases hb : (doCheck s).1
      · rw [runBatches_cons_of_true cfg sched L fuel c rest start s hb]
        obtain ⟨hda, _⟩ := doCheck_scored_k s
        refine ⟨by rw [hda]; exact h1, ?_⟩
        rw [doCheck_published s]
        exact h4
      · have hb' : (doCheck s).1 = false := by simpa using hb
        rw [runBatches_cons_of_false cfg sched L fuel c rest start s hb']
        obtain ⟨hda, hdb, hdc⟩ := doCheck_false_fields hb'
        have hsplit : (c :: rest : List (ℕ × Cand)) =
            (c :: rest.take (cfg.scanBatchSize - 1)) ++ rest.drop (cfg.scanBatchSize - 1) := by
          rw [List.cons_append, List.take_append_drop]
        rw [hsplit] at h2 h3
        rw [List.map_append] at h3
        obtain ⟨hbatchPW, hrestPW, _⟩ := List.pairwise_append.mp h3
        rw [← List.map_append] at h3
        obtain ⟨hA, hB, hC⟩ := runChunks_ord cfg sched L start hsched
          (c :: rest.take (cfg.scanBatchSize - 1)).length
          (c :: rest.take (cfg.scanBatchSize - 1)) (rest.drop (cfg.scanBatchSize - 1)) 0
          { (doCheck s).2 with evs := (doCheck s).2.evs ++ [Ev.batchStart start] }
          (by show (doCheck s).2.scored.Pairwise TieLt
              rw [hda]
              exact h1)
          (by show ∀ e ∈ (doCheck s).2.scored, _
              rw [hda]
              exact h2)
          h3
        have hqA : (batchPre cfg sched L c rest start s).scored.Pairwise TieLt := hA
        have hqB : ∀ e ∈ (batchPre cfg sched L c rest start s).scored,
            ∀ c' ∈ rest.drop (cfg.scanBatchSize - 1), e.idx < c'.1 := hB
        have hqC : publishedLists (batchPre cfg sched L c rest start s).evs
            = publishedLists ((doCheck s).2.evs ++ [Ev.batchStart start]) := hC
        have hpubPre : publishedLists (batchPre cfg sched L c rest start s).evs
            = publishedLists s.evs := by
          rw [hqC, publishedLists_append, hdb]
          simp [publishedLists]
        have hkeepPW : ((sortByScore (batchPre cfg sched L c rest start s).scored).take
            cfg.topKeep).Pairwise TieLt :=
          List.Pairwise.sublist (List.take_sublist _ _) (sortByScore_tie _ hqA)
        have hkeepMem : ∀ e ∈ (sortByScore (batchPre cfg sched L c rest start s).scored).take
            cfg.topKeep, e ∈ (batchPre cfg sched L c rest start s).scored := by
          intro e he
          exact mem_sortByScore.mp (List.mem_of_mem_take he)
        refine ih (rest.drop (cfg.scanBatchSize - 1)) (start + cfg.scanBatchSize)
          (batchState cfg sched L c rest start s) ?_ ?_ hrestPW ?_
        · rw [batchState_scored]
          exact hkeepPW
        · rw [batchState_scored]
          intro e he c' hc'
          exact hqB e (hkeepMem e he) c' hc'
        · rw [batchState_evs, publishedLists_append, hpubPre]
          intro m hm
          rcases List.mem_append.mp hm with hold | hnew
          · exact h4 m hold
          · have hm' : m = publishTop cfg.threshold
                ((sortByScore (batchPre cfg sched L c rest start s).scored).take cfg.topKeep) := by
              simpa [publishedLists] using hnew
            rw [hm']
            exact publishTop_sorted_tie hkeepPW

/-- The initial session state: `setMatches([])` and `setProgress({done: 0, ...})`. -/
def initSt (cfg : MatchConfig) (photos : List Cand) (t : ℕ) : MatchSt :=
  { scored := [], t := t, k := 0,
    evs := [Ev.publish [], Ev.progress 0 (min cfg.scanMax photos.length)] }

/-- The state at the end of the scanning loop. -/
def scanOut (cfg : MatchConfig) (sched : ℕ → ℕ → List ℕ)
    (photos : List Cand) (t : ℕ) : MatchSt :=
  runBatches cfg sched (min cfg.scanMax photos.length) ((photos.take cfg.scanMax).enum).length
    ((photos.take cfg.scanMax).enum) 0 (initSt cfg photos t)

lemma runMatching_eq (cfg : MatchConfig) (sched : ℕ → ℕ → List ℕ)
    (photos : List Cand) (t : ℕ) (hph : ¬photos.isEmpty = true) :
    runMatching cfg sched photos t =
      if (doCheck (scanOut cfg sched photos t)).1
      then ((doCheck (scanOut cfg sched photos t)).2, SessState.cancelled)
      else ({ (doCheck (scanOut cfg sched photos t)).2 with
              scored := sortByScore (doCheck (scanOut cfg sched photos t)).2.scored,
              evs := (doCheck (scanOut cfg sched photos t)).2.evs ++
                [Ev.publishFinal (((sortByScore
                    (doCheck (scanOut cfg sched photos t)).2.scored).filter
                  fun e => cfg.threshold ≤ e.score).take 8)] }, SessState.completed) := by
  rw [runMatching_unfold cfg sched photos t hph]
  rfl

/-- Two full sessions over the same pool and config, differing only in the
workers' completion schedules and their abort fuels, produce the same trace,
the same `scoredAll` and the same terminal state, provided neither run
observes the abort flag. -/
lemma runMatching_bisim (cfg : MatchConfig) (sched₁ sched₂ : ℕ → ℕ → List ℕ)
    (photos : List Cand) (t₁ t₂ : ℕ)
    (h₁ : ∀ k n, (sched₁ k n).Perm (List.range n))
    (h₂ : ∀ k n, (sched₂ k n).Perm (List.range n))
    (hno₁ : Ev.abortSeen ∉ (runMatching cfg sched₁ photos t₁).1.evs)
    (hno₂ : Ev.abortSeen ∉ (runMatching cfg sched₂ photos t₂).1.evs) :
    (runMatching cfg sched₁ photos t₁).1.evs = (runMatching cfg sched₂ photos t₂).1.evs ∧
      (runMatching cfg sched₁ photos t₁).1.scored
        = (runMatching cfg sched₂ photos t₂).1.scored ∧
      (runMatching cfg sched₁ photos t₁).2 = (runMatching cfg sched₂ photos t₂).2 := by
  by_cases hph : photos.isEmpty
  · simp only [runMatching, hph, if_true]
    exact ⟨trivial, trivial, trivial⟩
  · rw [runMatching_eq cfg sched₁ photos t₁ hph] at hno₁ ⊢
    rw [runMatching_eq cfg sched₂ photos t₂ hph] at hno₂ ⊢
    have hb1 : (doCheck (scanOut cfg sched₁ photos t₁)).1 = false := by
      by_cases hc : (doCheck (scanOut cfg sched₁ photos t₁)).1
      · exfalso
        simp only [hc, if_true] at hno₁
        apply hno₁
        rw [doCheck_true_evs hc]
        simp
      · simpa using hc
    have hb2 : (doCheck (scanOut cfg sched₂ photos t₂)).1 = false := by
      by_cases hc : (doCheck (scanOut cfg sched₂ photos t₂)).1
      · exfalso
        simp only [hc, if_true] at hno₂
        apply hno₂
        rw [doCheck_true_evs hc]
        simp
      · simpa using hc
    simp only [hb1, Bool.false_eq_true, if_false] at hno₁ ⊢
    simp only [hb2, Bool.false_eq_true, if_false] at hno₂ ⊢
    obtain ⟨hd₁a, hd₁b, hd₁c⟩ := doCheck_false_fields hb1
    obtain ⟨hd₂a, hd₂b, hd₂c⟩ := doCheck_false_fields hb2
    have hno₁' : Ev.abortSeen ∉ (doCheck (scanOut cfg sched₁ photos t₁)).2.evs ++
        [Ev.publishFinal (((sortByScore
            (doCheck (scanOut cfg sched₁ photos t₁)).2.scored).filter
          fun e => cfg.threshold ≤ e.score).take 8)] := hno₁
    have hno₂' : Ev.abortSeen ∉ (doCheck (scanOut cfg sched₂ photos t₂)).2.evs ++
        [Ev.publishFinal (((sortByScore
            (doCheck (scanOut cfg sched₂ photos t₂)).2.scored).filter
          fun e => cfg.threshold ≤ e.score).take 8)] := hno₂
    have hnoB₁ : Ev.abortSeen ∉ (scanOut cfg sched₁ photos t₁).evs := by
      intro hmem
      apply hno₁'
      apply List.mem_append_left
      rw [hd₁b]
      exact hmem
    have hnoB₂ : Ev.abortSeen ∉ (scanOut cfg sched₂ photos t₂).evs := by
      intro hmem
      apply hno₂'
      apply List.mem_append_left
      rw [hd₂b]
      exact hmem
    obtain ⟨hS, hE, hK⟩ := runBatches_bisim cfg sched₁ sched₂
      (min cfg.scanMax photos.length) h₁ h₂
      ((photos.take cfg.scanMax).enum).length ((photos.take cfg.scanMax).enum) 0
      (initSt cfg photos t₁) (initSt cfg photos t₂) rfl rfl rfl hnoB₁ hnoB₂
    have hS' : (scanOut cfg sched₁ photos t₁).scored
        = (scanOut cfg sched₂ photos t₂).scored := hS
    have hE' : (scanOut cfg sched₁ photos t₁).evs
        = (scanOut cfg sched₂ photos t₂).evs := hE
    refine ⟨?_, ?_, trivial⟩
    · show (doCheck (scanOut cfg sched₁ photos t₁)).2.evs ++ _
        = (doCheck (scanOut cfg sched₂ photos t₂)).2.evs ++ _
      rw [hd₁a, hd₂a, hd₁b, hd₂b, hS', hE']
    · show sortByScore (doCheck (scanOut cfg sched₁ photos t₁)).2.scored
        = sortByScore (doCheck (scanOut cfg sched₂ photos t₂)).2.scored
      rw [hd₁a, hd₂a, hS']

/-- Under a valid completion-order schedule every list a session publishes
(including the final one) is sorted by descending score with ties broken by
enumeration order. -/
lemma runMatching_ord (cfg : MatchConfig) (sched : ℕ → ℕ → List ℕ)
    (photos : List Cand) (t : ℕ)
    (hsched : ∀ k n, (sched k n).Perm (List.range n)) :
    ∀ m ∈ publishedLists (runMatching cfg sched photos t).1.evs,
      SortedDesc m ∧ m.Pairwise TieLt := by
  by_cases hph : photos.isEmpty
  · simp only [runMatching, hph, if_true]
    intro m hm
    simp [publishedLists] at hm
  · rw [runMatching_eq cfg sched photos t hph]
    obtain ⟨hPW, hPub⟩ := runBatches_ord cfg sched (min cfg.scanMax photos.length) hsched
      ((photos.take cfg.scanMax).enum).length ((photos.take cfg.scanMax).enum) 0
      (initSt cfg photos t)
      List.Pairwise.nil
      (by intro e he; simp [initSt] at he)
      (by rw [List.enum_map_fst]; exact List.pairwise_lt_range _)
      (by intro m hm
          have : m = [] := by simpa [initSt, publishedLists] using hm
          rw [this]
          exact ⟨List.Pairwise.nil, List.Pairwise.nil⟩)
    have hPW' : (scanOut cfg sched photos t).scored.Pairwise TieLt := hPW
    have hPub' : ∀ m ∈ publishedLists (scanOut cfg sched photos t).evs,
        SortedDesc m ∧ m.Pairwise TieLt := hPub
    by_cases hc : (doCheck (scanOut cfg sched photos t)).1
    · simp only [hc, if_true]
      intro m hm
      rw [show ((doCheck (scanOut cfg sched photos t)).2, SessState.cancelled).1.evs
          = (doCheck (scanOut cfg sched photos t)).2.evs from rfl,
        doCheck_published] at hm
      exact hPub' m hm
    · have hb : (doCheck (scanOut cfg sched photos t)).1 = false := by simpa using hc
      simp only [hb, Bool.false_eq_true, if_false]
      obtain ⟨hda, hdb, _⟩ := doCheck_false_fields hb
      intro m hm
      have hm' : m ∈ publishedLists ((doCheck (scanOut cfg sched photos t)).2.evs ++
          [Ev.publishFinal (((sortByScore
              (doCheck (scanOut cfg sched photos t)).2.scored).filter
            fun e => cfg.threshold ≤ e.score).take 8)]) := hm
      rw [publishedLists_append, hdb] at hm'
      rcases List.mem_append.mp hm' with hold | hnew
      · exact hPub' m hold
      · have hmf : m = ((sortByScore
            (doCheck (scanOut cfg sched photos t)).2.scored).filter
          fun e => cfg.threshold ≤ e.score).take 8 := by
          simpa [publishedLists] using hnew
        rw [hmf]
        constructor
        · exact List.Pairwise.sublist (List.take_sublist _ _)
            (List.Pairwise.filter _ (sortByScore_sorted _))
        · refine List.Pairwise.sublist (List.take_sublist _ _)
            (List.Pairwise.filter _ (sortByScore_tie _ ?_))
          rw [hda]
          exact hPW'

/-- C3: for every query, pool and configuration, two match sessions over
the same unchanged pool — differing only in the order in which concurrent
workers complete (any permutation of each chunk's worker indices) and in
when their abort fuels would run out — produce, as long as neither is
aborted, identical traces (hence identical published results at every
point), identical `scoredAll`, and the same terminal state; moreover every
published result list, including the final one, is sorted by descending
score with ties broken by pool enumeration order (earlier-enumerated
candidate first). -/
theorem deterministic_results (cfg : MatchConfig) (sched₁ sched₂ : ℕ → ℕ → List ℕ)
    (photos : List Cand) (t₁ t₂ : ℕ)
    (h₁ : ∀ k n, (sched₁ k n).Perm (List.range n))
    (h₂ : ∀ k n, (sched₂ k n).Perm (List.range n))
    (hno₁ : Ev.abortSeen ∉ (runMatching cfg sched₁ photos t₁).1.evs)
    (hno₂ : Ev.abortSeen ∉ (runMatching cfg sched₂ photos t₂).1.evs) :
    (runMatching cfg sched₁ photos t₁).1.evs = (runMatching cfg sched₂ photos t₂).1.evs ∧
      (runMatching cfg sched₁ photos t₁).1.scored
        = (runMatching cfg sched₂ photos t₂).1.scored ∧
      (runMatching cfg sched₁ photos t₁).2 = (runMatching cfg sched₂ photos t₂).2 ∧
      ∀ m ∈ publishedLists (runMatching cfg sched₁ photos t₁).1.evs,
        SortedDesc m ∧ m.Pairwise TieLt := by
  obtain ⟨ha, hb, hc⟩ :=
    runMatching_bisim cfg sched₁ sched₂ photos t₁ t₂ h₁ h₂ hno₁ hno₂
  exact ⟨ha, hb, hc, runMatching_ord cfg sched₁ photos t₁ h₁⟩

theorem deterministic_results_witness :
    (∀ k n, ((fun _ n => List.range n : ℕ → ℕ → List ℕ) k n).Perm (List.range n)) ∧
    (∀ k n, ((fun _ n => (List.range n).reverse : ℕ → ℕ → List ℕ) k n).Perm (List.range n)) ∧
    Ev.abortSeen ∉ (runMatching (sourceConfig 1) (fun _ n => List.range n)
      [some [1], some [1], some [0]] 1000).1.evs ∧
    Ev.abortSeen ∉ (runMatching (sourceConfig 1) (fun _ n => (List.range n).reverse)
      [some [1], some [1], some [0]] 1000).1.evs ∧
    ((runMatching (sourceConfig 1) (fun _ n => List.range n)
          [some [1], some [1], some [0]] 1000).1.evs
        = (runMatching (sourceConfig 1) (fun _ n => (List.range n).reverse)
            [some [1], some [1], some [0]] 1000).1.evs ∧
      (runMatching (sourceConfig 1) (fun _ n => List.range n)
          [some [1], some [1], some [0]] 1000).1.scored
        = (runMatching (sourceConfig 1) (fun _ n => (List.range n).reverse)
            [some [1], some [1], some [0]] 1000).1.scored ∧
      (runMatching (sourceConfig 1) (fun _ n => List.range n)
          [some [1], some [1], some [0]] 1000).2
        = (runMatching (sourceConfig 1) (fun _ n => (List.range n).reverse)
            [some [1], some [1], some [0]] 1000).2 ∧
      ∀ m ∈ publishedLists (runMatching (sourceConfig 1) (fun _ n => List.range n)
          [some [1], some [1], some [0]] 1000).1.evs,
        SortedDesc m ∧ m.Pairwise TieLt) :=
  ⟨fun _ _ => List.Perm.refl _, fun _ _ => List.reverse_perm _, by decide, by decide,
    deterministic_results (sourceConfig 1)
      (fun _ n => List.range n) (fun _ n => (List.range n).reverse)
      [some [1], some [1], some [0]] 1000 1000
      (fun _ _ => List.Perm.refl _) (fun _ _ => List.reverse_perm _)
      (by decide) (by decide)⟩
